import Mathlib

/-!
Verification of the structural diff engine and tree navigation/state model
of the yam YAML viewer/editor.

The Go sources are embedded shallowly:
* `internal/parser` (types.go, parser.go): `YamNode`, `NodeKind`, `convertNode`,
  `Walk`/`WalkVisible`, `Flatten`/`FlattenVisible`, `InferType`, `isNumber`.
* `internal/diff` (diff.go, types.go): `DiffType`, `DiffNode`, `DiffSummary`,
  `Compare`, `compareNodes`, `calculateSummary`, `walkDiffTree`.
* `internal/ui` (model.go): the edit/undo state machine: `pushUndo`,
  `confirmEdit`, `undo`, `redo`, `updateModifiedState`, `collapseAll`,
  `expandAll`.

Go pointers to tree nodes become values; the parent back-pointer is dropped
(no claim below needs it).  Go maps keyed by strings become association-list
folds with last-insert-wins semantics, and Go map key sets become deduplicated
lists.  The edit model identifies nodes by a numeric id and stores the mutable
scalar values in a function `Nat → String`, mirroring the in-place mutation of
`node.Raw.Value`.
-/

namespace Yam

/-- NodeKind from internal/parser/types.go. -/
inductive NodeKind where
  | document
  | mapping
  | sequence
  | scalar
  | alias
deriving DecidableEq, Repr

/-- YamNode from internal/parser/types.go.  The fields `kind`, `value` and
`tag` inline the wrapped `Raw *yaml.Node` data that the methods `Kind()`,
`Value()` and `Tag()` read; `Parent` is dropped (a non-owning back-pointer). -/
inductive YamNode where
  | node (kind : NodeKind) (value : String) (tag : String) (key : String)
      (index : Nat) (depth : Nat) (path : List String) (collapsed : Bool)
      (children : List YamNode)

/-- Projection for the node kind (method `Kind()`). -/
def YamNode.kind : YamNode → NodeKind
  | .node k _ _ _ _ _ _ _ _ => k

/-- Projection for the scalar value (method `Value()`). -/
def YamNode.value : YamNode → String
  | .node _ v _ _ _ _ _ _ _ => v

/-- Projection for the YAML tag (method `Tag()`). -/
def YamNode.tag : YamNode → String
  | .node _ _ t _ _ _ _ _ _ => t

/-- Projection for the mapping key field `Key`. -/
def YamNode.key : YamNode → String
  | .node _ _ _ k _ _ _ _ _ => k

/-- Projection for the field `Index`. -/
def YamNode.index : YamNode → Nat
  | .node _ _ _ _ i _ _ _ _ => i

/-- Projection for the field `Depth`. -/
def YamNode.depth : YamNode → Nat
  | .node _ _ _ _ _ d _ _ _ => d

/-- Projection for the field `Path`. -/
def YamNode.path : YamNode → List String
  | .node _ _ _ _ _ _ p _ _ => p

/-- Projection for the field `Collapsed`. -/
def YamNode.collapsed : YamNode → Bool
  | .node _ _ _ _ _ _ _ c _ => c

/-- Projection for the field `Children`. -/
def YamNode.children : YamNode → List YamNode
  | .node _ _ _ _ _ _ _ _ ch => ch

/-- HasChildren from internal/parser/types.go: `len(n.Children) > 0`. -/
def YamNode.hasChildren (n : YamNode) : Bool := !n.children.isEmpty

/-- IsContainer from internal/parser/types.go: kind is Mapping, Sequence or
Document. -/
def YamNode.isContainer (n : YamNode) : Bool :=
  n.kind = .mapping ∨ n.kind = .sequence ∨ n.kind = .document

/-- DiffType from internal/diff/types.go. -/
inductive DiffType where
  | unchanged
  | added
  | removed
  | modified
deriving DecidableEq, Repr

/-- DiffNode from internal/diff/types.go: the alignment result of one
position of the two trees. -/
inductive DiffNode where
  | node (left : Option YamNode) (right : Option YamNode) (type : DiffType)
      (children : List DiffNode) (path : String)

/-- Projection for the field `Left`. -/
def DiffNode.left : DiffNode → Option YamNode
  | .node l _ _ _ _ => l

/-- Projection for the field `Right`. -/
def DiffNode.right : DiffNode → Option YamNode
  | .node _ r _ _ _ => r

/-- Projection for the field `Type`. -/
def DiffNode.type : DiffNode → DiffType
  | .node _ _ t _ _ => t

/-- Projection for the field `Children`. -/
def DiffNode.children : DiffNode → List DiffNode
  | .node _ _ _ ch _ => ch

/-- Projection for the field `Path`. -/
def DiffNode.path : DiffNode → String
  | .node _ _ _ _ p => p

/-- DiffSummary from internal/diff/types.go. -/
structure DiffSummary where
  added : Nat
  removed : Nat
  modified : Nat
  total : Nat
deriving DecidableEq, Repr

/-- DiffResult from internal/diff/types.go. -/
structure DiffResult where
  root : Option DiffNode
  summary : DiffSummary
  leftFile : String
  rightFile : String

/-- The Go code builds `leftByKey`/`rightByKey` maps by inserting each child
under its key (later children overwrite earlier ones) and then looks keys up.
This is that lookup: the last child carrying the key, if any. -/
def lookupByKey (children : List YamNode) (k : String) : Option YamNode :=
  children.foldl (fun acc c => if c.key = k then some c else acc) none

/-- Lexicographic comparison of characters by code point; for the UTF-8
strings Go sorts, code-point order and byte order agree. -/
def lexLe : List Char → List Char → Bool
  | [], _ => true
  | _ :: _, [] => false
  | a :: as, b :: bs =>
    if a.toNat < b.toNat then true
    else if b.toNat < a.toNat then false
    else lexLe as bs

/-- String comparison used by `sort.Strings`. -/
def strLeB (a b : String) : Bool := lexLe a.data b.data

/-- The key set union built in the Mapping branch of `compareNodes`
(diff.go): all distinct keys of both sides, sorted (`sort.Strings`). -/
def unionKeys (lc rc : List YamNode) : List String :=
  List.insertionSort (fun a b => strLeB a b = true)
    ((lc.map YamNode.key ++ rc.map YamNode.key).dedup)

/-- Size of an optional node, the termination measure of `compareNodes`
(proof-only: the derived `SizeOf` of the nested inductive generates no
executable code, and none is needed for a measure). -/
noncomputable def osize (o : Option YamNode) : Nat := o.elim 0 sizeOf

theorem osize_some (n : YamNode) : osize (some n) = sizeOf n := rfl

theorem lookupByKey_mem_aux (cs : List YamNode) (k : String)
    (acc : Option YamNode) (c : YamNode)
    (h : cs.foldl (fun acc c => if c.key = k then some c else acc) acc = some c) :
    acc = some c ∨ c ∈ cs := by
  induction cs generalizing acc with
  | nil => exact .inl h
  | cons x xs ih =>
    simp only [List.foldl_cons] at h
    rcases ih _ h with h' | h'
    · split at h'
      · exact .inr (by injection h' with h''; exact h'' ▸ List.mem_cons_self x xs)
      · exact .inl h'
    · exact .inr (List.mem_cons_of_mem x h')

theorem lookupByKey_mem {cs : List YamNode} {k : String} {c : YamNode}
    (h : lookupByKey cs k = some c) : c ∈ cs := by
  rcases lookupByKey_mem_aux cs k none c h with h' | h'
  · cases h'
  · exact h'

theorem sizeOf_children_lt (n : YamNode) : sizeOf n.children < sizeOf n := by
  cases n with
  | node k v t ky i d p c ch =>
    simp only [YamNode.children]
    simp

theorem sizeOf_list_pos (cs : List YamNode) : 0 < sizeOf cs := by
  cases cs <;> simp

theorem osize_lookupByKey_lt (cs : List YamNode) (k : String) :
    osize (lookupByKey cs k) < sizeOf cs := by
  cases hl : lookupByKey cs k with
  | none =>
    have := sizeOf_list_pos cs
    simp [osize]; omega
  | some c =>
    have h1 : sizeOf c < sizeOf cs := List.sizeOf_lt_of_mem (lookupByKey_mem hl)
    simp [osize]; omega

theorem osize_getElem_lt (cs : List YamNode) (i : Nat) :
    osize cs[i]? < sizeOf cs := by
  cases hl : cs[i]? with
  | none =>
    have := sizeOf_list_pos cs
    simp [osize]; omega
  | some c =>
    have h1 : sizeOf c < sizeOf cs := List.sizeOf_lt_of_mem (List.getElem?_mem hl)
    simp [osize]; omega

mutual

/-- compareNodes from internal/diff/diff.go: recursively compares two
`YamNode`s at a JSONPath-like `path`, mirroring the if-chain of the source
(nil cases, Mapping, Sequence, Scalar, kind mismatch, Document, fallback).
Mapping keys are the sorted union of both sides' keys. -/
def compareNodes (left right : Option YamNode) (path : String) :
    Option DiffNode :=
  match left, right with
  | none, none => none
  | none, some r => some (.node none (some r) .added [] path)
  | some l, none => some (.node (some l) none .removed [] path)
  | some l, some r =>
    if l.kind = .mapping ∧ r.kind = .mapping then
      let children :=
        compareMapChildren l.children r.children
          (unionKeys l.children r.children) path
      let hasChanges := children.any fun c => c.type ≠ .unchanged
      some (.node (some l) (some r)
        (if hasChanges then .modified else .unchanged) children path)
    else if l.kind = .sequence ∧ r.kind = .sequence then
      let maxLen := max l.children.length r.children.length
      let children :=
        compareSeqChildren l.children r.children (List.range maxLen) path
      let hasChanges := children.any fun c => c.type ≠ .unchanged
      some (.node (some l) (some r)
        (if hasChanges then .modified else .unchanged) children path)
    else if l.kind = .scalar ∧ r.kind = .scalar then
      some (.node (some l) (some r)
        (if l.value ≠ r.value then .modified else .unchanged) [] path)
    else if l.kind ≠ r.kind then
      some (.node (some l) (some r) .modified [] path)
    else if l.kind = .document ∧ r.kind = .document then
      compareNodes l.children[0]? r.children[0]? path
    else
      some (.node (some l) (some r) .unchanged [] path)
termination_by (osize left + osize right, 0)
decreasing_by
  · apply Prod.Lex.left
    rw [osize_some, osize_some]
    have h1 := sizeOf_children_lt l
    have h2 := sizeOf_children_lt r
    omega
  · apply Prod.Lex.left
    rw [osize_some, osize_some]
    have h1 := sizeOf_children_lt l
    have h2 := sizeOf_children_lt r
    omega
  · apply Prod.Lex.left
    rw [osize_some, osize_some]
    have h1 := osize_getElem_lt l.children 0
    have h2 := osize_getElem_lt r.children 0
    have h3 := sizeOf_children_lt l
    have h4 := sizeOf_children_lt r
    omega

/-- The Mapping-branch loop of compareNodes: visit each key of the sorted
union, recurse on the two lookups, and keep the non-nil child diffs. -/
def compareMapChildren (lc rc : List YamNode) (keys : List String)
    (path : String) : List DiffNode :=
  match keys with
  | [] => []
  | k :: ks =>
    match compareNodes (lookupByKey lc k) (lookupByKey rc k)
        (path ++ "." ++ k) with
    | some d => d :: compareMapChildren lc rc ks path
    | none => compareMapChildren lc rc ks path
termination_by (sizeOf lc + sizeOf rc, keys.length)
decreasing_by
  · apply Prod.Lex.left
    have h1 := osize_lookupByKey_lt lc k
    have h2 := osize_lookupByKey_lt rc k
    omega
  · apply Prod.Lex.right
    simp only [List.length_cons]
    omega

/-- The Sequence-branch loop of compareNodes: positional alignment over
indices `0 .. maxLen-1`, keeping the non-nil child diffs. -/
def compareSeqChildren (lc rc : List YamNode) (idxs : List Nat)
    (path : String) : List DiffNode :=
  match idxs with
  | [] => []
  | i :: is' =>
    match compareNodes lc[i]? rc[i]?
        (path ++ "[" ++ toString i ++ "]") with
    | some d => d :: compareSeqChildren lc rc is' path
    | none => compareSeqChildren lc rc is' path
termination_by (sizeOf lc + sizeOf rc, idxs.length)
decreasing_by
  · apply Prod.Lex.left
    have h1 := osize_getElem_lt lc i
    have h2 := osize_getElem_lt rc i
    omega
  · apply Prod.Lex.right
    simp only [List.length_cons]
    omega

end

theorem sizeOf_diff_children_lt (n : DiffNode) :
    sizeOf n.children < sizeOf n := by
  cases n with
  | node l r t ch p =>
    simp only [DiffNode.children]
    simp
    omega

theorem sizeOf_diff_pos (c : DiffNode) : 0 < sizeOf c := by
  cases c; simp

mutual

/-- walkDiffTree from internal/diff/diff.go: pre-order accumulation of the
per-type counters over the diff tree (in Go the summary is mutated through a
pointer; here it is threaded through the child loop). -/
def walkDiffTree (node : DiffNode) (summary : DiffSummary) : DiffSummary :=
  walkDiffTreeList node.children
    (match node.type with
     | .added => { summary with added := summary.added + 1 }
     | .removed => { summary with removed := summary.removed + 1 }
     | .modified => { summary with modified := summary.modified + 1 }
     | .unchanged => summary)
termination_by (sizeOf node, 0)
decreasing_by
  apply Prod.Lex.left
  exact sizeOf_diff_children_lt node

/-- The child loop of walkDiffTree. -/
def walkDiffTreeList (nodes : List DiffNode) (summary : DiffSummary) :
    DiffSummary :=
  match nodes with
  | [] => summary
  | c :: cs => walkDiffTreeList cs (walkDiffTree c summary)
termination_by (sizeOf nodes, nodes.length)
decreasing_by
  · apply Prod.Lex.left
    simp only [List.cons.sizeOf_spec]
    omega
  · apply Prod.Lex.left
    have := sizeOf_diff_pos c
    simp only [List.cons.sizeOf_spec]
    omega

end

/-- calculateSummary from internal/diff/diff.go. -/
def calculateSummary (root : Option DiffNode) : DiffSummary :=
  match root with
  | none => ⟨0, 0, 0, 0⟩
  | some r =>
    let summary := walkDiffTree r ⟨0, 0, 0, 0⟩
    { summary with total := summary.added + summary.removed + summary.modified }

/-- Compare from internal/diff/diff.go. -/
def Compare (left right : Option YamNode) : DiffResult :=
  match left, right with
  | none, none => ⟨none, ⟨0, 0, 0, 0⟩, "", ""⟩
  | _, _ =>
    let root := compareNodes left right "$"
    let summary := calculateSummary root
    ⟨root, summary, "", ""⟩

/-- Nested induction principle for `DiffNode`: to prove a property of every
diff node it suffices to prove it for a node assuming it for all children. -/
theorem DiffNode.rec_mem_diff {P : DiffNode → Prop}
    (h : ∀ l r t ch p, (∀ c ∈ ch, P c) → P (.node l r t ch p)) :
    ∀ n, P n
  | .node l r t ch p => h l r t ch p fun c hc =>
      have : sizeOf c < sizeOf (DiffNode.node l r t ch p) := by
        have h1 : sizeOf c < sizeOf ch := List.sizeOf_lt_of_mem hc
        simp
        omega
      DiffNode.rec_mem_diff h c
termination_by n => sizeOf n

/-- Nested induction principle for `YamNode`. -/
theorem YamNode.rec_mem_yam {P : YamNode → Prop}
    (h : ∀ k v t ky i d p c ch, (∀ x ∈ ch, P x) → P (.node k v t ky i d p c ch)) :
    ∀ n, P n
  | .node k v t ky i d p c ch => h k v t ky i d p c ch fun x hx =>
      have : sizeOf x < sizeOf (YamNode.node k v t ky i d p c ch) := by
        have h1 : sizeOf x < sizeOf ch := List.sizeOf_lt_of_mem hx
        simp
        omega
      YamNode.rec_mem_yam h x
termination_by n => sizeOf n

mutual

/-- All nodes of a diff tree, in pre-order (the tree "produced by Compare"
that the invariants below quantify over). -/
def DiffNode.allNodes (n : DiffNode) : List DiffNode :=
  n :: allNodesList n.children
termination_by (sizeOf n, 0)
decreasing_by
  apply Prod.Lex.left
  exact sizeOf_diff_children_lt n

/-- All nodes of a list of diff trees. -/
def allNodesList (nodes : List DiffNode) : List DiffNode :=
  match nodes with
  | [] => []
  | c :: cs => c.allNodes ++ allNodesList cs
termination_by (sizeOf nodes, nodes.length)
decreasing_by
  · apply Prod.Lex.left
    simp only [List.cons.sizeOf_spec]
    omega
  · apply Prod.Lex.left
    have := sizeOf_diff_pos c
    simp only [List.cons.sizeOf_spec]
    omega

end

mutual

/-- Number of nodes of the given type in a diff tree. -/
def countType (t : DiffType) (n : DiffNode) : Nat :=
  (if n.type = t then 1 else 0) + countTypeList t n.children
termination_by (sizeOf n, 0)
decreasing_by
  apply Prod.Lex.left
  exact sizeOf_diff_children_lt n

/-- Number of nodes of the given type in a list of diff trees. -/
def countTypeList (t : DiffType) (nodes : List DiffNode) : Nat :=
  match nodes with
  | [] => 0
  | c :: cs => countType t c + countTypeList t cs
termination_by (sizeOf nodes, nodes.length)
decreasing_by
  · apply Prod.Lex.left
    simp only [List.cons.sizeOf_spec]
    omega
  · apply Prod.Lex.left
    have := sizeOf_diff_pos c
    simp only [List.cons.sizeOf_spec]
    omega

end

mutual

/-- Whether every node of a diff tree is Unchanged. -/
def allUnch (n : DiffNode) : Bool :=
  (n.type == .unchanged) && allUnchList n.children
termination_by (sizeOf n, 0)
decreasing_by
  apply Prod.Lex.left
  exact sizeOf_diff_children_lt n

/-- Whether every node of a list of diff trees is Unchanged. -/
def allUnchList (nodes : List DiffNode) : Bool :=
  match nodes with
  | [] => true
  | c :: cs => allUnch c && allUnchList cs
termination_by (sizeOf nodes, nodes.length)
decreasing_by
  · apply Prod.Lex.left
    simp only [List.cons.sizeOf_spec]
    omega
  · apply Prod.Lex.left
    have := sizeOf_diff_pos c
    simp only [List.cons.sizeOf_spec]
    omega

end

theorem sizeOf_yam_pos (c : YamNode) : 0 < sizeOf c := by
  cases c; simp

mutual

/-- Whether a document tree contains no Document-kind node: the shape of
"any nesting of mappings, sequences and scalars" that the spec quantifies
over. -/
def docFree (n : YamNode) : Bool :=
  (n.kind != .document) && docFreeList n.children
termination_by (sizeOf n, 0)
decreasing_by
  apply Prod.Lex.left
  exact sizeOf_children_lt n

/-- Whether a list of document trees contains no Document-kind node. -/
def docFreeList (nodes : List YamNode) : Bool :=
  match nodes with
  | [] => true
  | c :: cs => docFree c && docFreeList cs
termination_by (sizeOf nodes, nodes.length)
decreasing_by
  · apply Prod.Lex.left
    simp only [List.cons.sizeOf_spec]
    omega
  · apply Prod.Lex.left
    have := sizeOf_yam_pos c
    simp only [List.cons.sizeOf_spec]
    omega

end

theorem mem_allNodesList {x : DiffNode} {nodes : List DiffNode} :
    x ∈ allNodesList nodes ↔ ∃ c ∈ nodes, x ∈ c.allNodes := by
  induction nodes with
  | nil => simp [allNodesList]
  | cons c cs ih =>
    simp only [allNodesList, List.mem_append, ih, List.mem_cons]
    constructor
    · rintro (h | ⟨c1, hc1, hx⟩)
      · exact ⟨c, .inl rfl, h⟩
      · exact ⟨c1, .inr hc1, hx⟩
    · rintro ⟨c1, hc1 | hc1, hx⟩
      · exact .inl (hc1 ▸ hx)
      · exact .inr ⟨c1, hc1, hx⟩

theorem allUnchList_iff {nodes : List DiffNode} :
    allUnchList nodes = true ↔ ∀ c ∈ nodes, allUnch c = true := by
  induction nodes with
  | nil => simp [allUnchList]
  | cons c cs ih => simp [allUnchList, ih]

theorem docFreeList_iff {nodes : List YamNode} :
    docFreeList nodes = true ↔ ∀ c ∈ nodes, docFree c = true := by
  induction nodes with
  | nil => simp [docFreeList]
  | cons c cs ih => simp [docFreeList, ih]

theorem walkDiffTree_eq :
    ∀ (node : DiffNode) (summary : DiffSummary),
      walkDiffTree node summary =
        ⟨summary.added + countType .added node,
         summary.removed + countType .removed node,
         summary.modified + countType .modified node,
         summary.total⟩ := by
  apply walkDiffTree.induct
    (fun node summary =>
      walkDiffTree node summary =
        ⟨summary.added + countType .added node,
         summary.removed + countType .removed node,
         summary.modified + countType .modified node,
         summary.total⟩)
    (fun nodes summary =>
      walkDiffTreeList nodes summary =
        ⟨summary.added + countTypeList .added nodes,
         summary.removed + countTypeList .removed nodes,
         summary.modified + countTypeList .modified nodes,
         summary.total⟩)
  · intro node summary ih
    rw [walkDiffTree, ih]
    cases node with
    | node l r t ch p =>
      cases t <;>
        simp [countType, DiffNode.type, DiffNode.children, DiffSummary.mk.injEq] <;>
        omega
  · intro summary
    simp [walkDiffTreeList, countTypeList]
  · intro summary c cs ih1 ih2
    rw [walkDiffTreeList, ih2, ih1]
    simp [countTypeList, DiffSummary.mk.injEq]
    omega

theorem calculateSummary_some (d : DiffNode) :
    calculateSummary (some d) =
      ⟨countType .added d, countType .removed d, countType .modified d,
       countType .added d + countType .removed d + countType .modified d⟩ := by
  simp [calculateSummary, walkDiffTree_eq]

theorem allUnch_type {d : DiffNode} (h : allUnch d = true) :
    d.type = .unchanged := by
  rw [allUnch] at h
  simp at h
  exact h.1

theorem countType_eq_zero_of_allUnch {t : DiffType} (ht : t ≠ .unchanged) :
    ∀ d : DiffNode, allUnch d = true → countType t d = 0 := by
  apply DiffNode.rec_mem_diff
  intro l r ty ch p ih h
  rw [allUnch] at h
  simp [DiffNode.type, DiffNode.children] at h
  rw [countType]
  simp [DiffNode.type, DiffNode.children, h.1]
  constructor
  · intro he
    exact ht he.symm
  · have hl := allUnchList_iff.mp h.2
    clear h
    induction ch with
    | nil => simp [countTypeList]
    | cons c cs ihc =>
      rw [countTypeList]
      have h1 := ih c (List.mem_cons_self c cs) (hl c (List.mem_cons_self c cs))
      have h2 := ihc (fun x hx => ih x (List.mem_cons_of_mem c hx))
        (fun x hx => hl x (List.mem_cons_of_mem c hx))
      omega

theorem lookupByKey_acc (cs : List YamNode) (k : String) :
    ∀ acc : Option YamNode,
      cs.foldl (fun acc c => if c.key = k then some c else acc) acc =
        match lookupByKey cs k with
        | some c => some c
        | none => acc := by
  induction cs with
  | nil => intro acc; simp [lookupByKey]
  | cons x xs ih =>
    intro acc
    show xs.foldl _ (if x.key = k then some x else acc) = _
    rw [ih]
    have hx : lookupByKey (x :: xs) k =
        match lookupByKey xs k with
        | some c => some c
        | none => if x.key = k then some x else none := by
      show xs.foldl _ (if x.key = k then some x else none) = _
      rw [ih]
    rw [hx]
    cases lookupByKey xs k with
    | some c => simp
    | none =>
      by_cases hk : x.key = k <;> simp [hk]

theorem lookupByKey_cons (x : YamNode) (xs : List YamNode) (k : String) :
    lookupByKey (x :: xs) k =
      match lookupByKey xs k with
      | some c => some c
      | none => if x.key = k then some x else none := by
  show xs.foldl _ (if x.key = k then some x else none) = _
  rw [lookupByKey_acc]

theorem lookupByKey_isSome_of_mem {cs : List YamNode} {k : String}
    (h : k ∈ cs.map YamNode.key) : ∃ c, lookupByKey cs k = some c := by
  induction cs with
  | nil => simp at h
  | cons x xs ih =>
    rw [lookupByKey_cons]
    simp at h
    rcases h with h | h
    · cases hx : lookupByKey xs k with
      | some c => exact ⟨c, rfl⟩
      | none => exact ⟨x, by simp [h]⟩
    · rcases ih (by simpa using h) with ⟨c, hc⟩
      exact ⟨c, by simp [hc]⟩

theorem lookupByKey_key {cs : List YamNode} {k : String} {c : YamNode}
    (h : lookupByKey cs k = some c) : c.key = k := by
  induction cs with
  | nil => simp [lookupByKey] at h
  | cons x xs ih =>
    rw [lookupByKey_cons] at h
    cases hx : lookupByKey xs k with
    | some c1 =>
      rw [hx] at h
      injection h with h2
      exact ih (h2 ▸ hx)
    | none =>
      rw [hx] at h
      by_cases hk : x.key = k
      · simp [hk] at h
        exact h ▸ hk
      · simp [hk] at h

/-- The per-node classification invariant of a diff tree. -/
def nodeOk (d : DiffNode) : Prop :=
  (d.type = .added ↔ d.left = none) ∧
  (d.type = .removed ↔ d.right = none) ∧
  (d.left ≠ none → d.right ≠ none →
    d.type = .unchanged ∨ d.type = .modified)

theorem nodeOk_both {l r : YamNode} {ty : DiffType} {ch : List DiffNode}
    {p : String} (h : ty = .unchanged ∨ ty = .modified) :
    nodeOk (.node (some l) (some r) ty ch p) := by
  rcases h with h | h <;>
    simp [nodeOk, h, DiffNode.type, DiffNode.left, DiffNode.right]

theorem ite_unchanged_or_modified (c : Prop) [Decidable c] :
    (if c then DiffType.modified else .unchanged) = .unchanged ∨
      (if c then DiffType.modified else .unchanged) = .modified := by
  split
  · exact .inr rfl
  · exact .inl rfl

theorem ite_unchanged_or_modified2 (c : Prop) [Decidable c] :
    (if c then DiffType.unchanged else .modified) = .unchanged ∨
      (if c then DiffType.unchanged else .modified) = .modified := by
  split
  · exact .inl rfl
  · exact .inr rfl

theorem compareNodes_nodeOk :
    ∀ (left right : Option YamNode) (path : String),
      ∀ d, compareNodes left right path = some d →
        ∀ x ∈ d.allNodes, nodeOk x := by
  apply compareNodes.induct
    (fun left right path => ∀ d, compareNodes left right path = some d →
      ∀ x ∈ d.allNodes, nodeOk x)
    (fun lc rc idxs path =>
      ∀ x ∈ allNodesList (compareSeqChildren lc rc idxs path), nodeOk x)
    (fun lc rc keys path =>
      ∀ x ∈ allNodesList (compareMapChildren lc rc keys path), nodeOk x)
  · intro p d hd
    simp [compareNodes] at hd
  · intro p r d hd x hx
    simp only [compareNodes] at hd
    injection hd with hd
    subst hd
    rw [DiffNode.allNodes] at hx
    simp [allNodesList, DiffNode.children] at hx
    subst hx
    simp [nodeOk, DiffNode.type, DiffNode.left, DiffNode.right]
  · intro p l d hd x hx
    simp only [compareNodes] at hd
    injection hd with hd
    subst hd
    rw [DiffNode.allNodes] at hx
    simp [allNodesList, DiffNode.children] at hx
    subst hx
    simp [nodeOk, DiffNode.type, DiffNode.left, DiffNode.right]
  · intro p l r h ih d hd x hx
    simp only [compareNodes, h.1, h.2] at hd
    simp at hd
    subst hd
    rw [DiffNode.allNodes] at hx
    rcases List.mem_cons.mp hx with hx | hx
    · subst hx
      exact nodeOk_both (ite_unchanged_or_modified _)
    · simp only [DiffNode.children] at hx
      exact ih x hx
  · intro p l r hm h maxLen ih d hd x hx
    simp only [compareNodes, h.1, h.2, hm] at hd
    simp at hd
    subst hd
    rw [DiffNode.allNodes] at hx
    rcases List.mem_cons.mp hx with hx | hx
    · subst hx
      exact nodeOk_both (ite_unchanged_or_modified _)
    · simp only [DiffNode.children] at hx
      exact ih x hx
  · intro p l r hm hs h d hd x hx
    simp only [compareNodes, h.1, h.2, hm, hs] at hd
    simp at hd
    subst hd
    rw [DiffNode.allNodes] at hx
    rcases List.mem_cons.mp hx with hx | hx
    · subst hx
      exact nodeOk_both (ite_unchanged_or_modified2 _)
    · simp [allNodesList, DiffNode.children] at hx
  · intro p l r hm hs hsc h d hd x hx
    simp only [compareNodes, hm, hs, hsc, if_pos h] at hd
    simp at hd
    subst hd
    rw [DiffNode.allNodes] at hx
    rcases List.mem_cons.mp hx with hx | hx
    · subst hx
      exact nodeOk_both (.inr rfl)
    · simp [allNodesList, DiffNode.children] at hx
  · intro p l r hm hs hsc hne h ih d hd
    simp only [compareNodes, hm, hs, hsc, if_neg hne, h.1, h.2] at hd
    simp at hd
    exact ih d hd
  · intro p l r hm hs hsc hne hdoc d hd x hx
    simp only [compareNodes, hm, hs, hsc, if_neg hne, hdoc] at hd
    simp at hd
    subst hd
    rw [DiffNode.allNodes] at hx
    rcases List.mem_cons.mp hx with hx | hx
    · subst hx
      exact nodeOk_both (.inl rfl)
    · simp [allNodesList, DiffNode.children] at hx
  · intro lc rc p x hx
    simp [compareSeqChildren, allNodesList] at hx
  · intro lc rc p i is' d hd ih1 ih2 x hx
    rw [compareSeqChildren, hd] at hx
    simp only [allNodesList, List.mem_append] at hx
    rcases hx with hx | hx
    · exact ih1 d hd x hx
    · exact ih2 x hx
  · intro lc rc p i is' hd ih1 ih2 x hx
    rw [compareSeqChildren, hd] at hx
    exact ih2 x hx
  · intro lc rc p x hx
    simp [compareMapChildren, allNodesList] at hx
  · intro lc rc p k ks d hd ih1 ih2 x hx
    rw [compareMapChildren, hd] at hx
    simp only [allNodesList, List.mem_append] at hx
    rcases hx with hx | hx
    · exact ih1 d hd x hx
    · exact ih2 x hx
  · intro lc rc p k ks hd ih1 ih2 x hx
    rw [compareMapChildren, hd] at hx
    exact ih2 x hx

theorem Compare_root_eq (left right : Option YamNode) :
    (Compare left right).root = compareNodes left right "$" := by
  cases left <;> cases right <;> simp [Compare, compareNodes]

theorem mem_unionKeys {k : String} {lc rc : List YamNode} :
    k ∈ unionKeys lc rc ↔
      k ∈ lc.map YamNode.key ∨ k ∈ rc.map YamNode.key := by
  rw [unionKeys]
  rw [(List.perm_insertionSort _ _).mem_iff]
  rw [List.mem_dedup, List.mem_append]

theorem anyChanged_false_of_allUnch {ds : List DiffNode}
    (h : allUnchList ds = true) :
    (ds.any fun c => c.type ≠ .unchanged) = false := by
  induction ds with
  | nil => simp
  | cons c cs ih =>
    rw [allUnchList] at h
    simp only [Bool.and_eq_true] at h
    simp only [List.any_cons, Bool.or_eq_false_iff]
    constructor
    · simp [allUnch_type h.1]
    · exact ih h.2

theorem compareNodes_self :
    ∀ t : YamNode, docFree t = true → ∀ p : String,
      ∃ d, compareNodes (some t) (some t) p = some d ∧ allUnch d = true := by
  apply YamNode.rec_mem_yam
  intro k v tg ky idx dep pth cl ch ih hdf p
  rw [docFree] at hdf
  simp only [YamNode.kind, YamNode.children, Bool.and_eq_true, bne_iff_ne,
    ne_eq] at hdf
  have hdfl := docFreeList_iff.mp hdf.2
  cases k with
  | document => exact absurd rfl hdf.1
  | mapping =>
    rw [compareNodes]
    simp only [YamNode.kind, YamNode.children, and_self, if_pos]
    have hsub : ∀ keys p1, (∀ k0 ∈ keys, k0 ∈ ch.map YamNode.key) →
        allUnchList (compareMapChildren ch ch keys p1) = true := by
      intro keys
      induction keys with
      | nil => intro p1 _; simp [compareMapChildren, allUnchList]
      | cons k0 ks ihk =>
        intro p1 hmem
        obtain ⟨c0, hc0⟩ :=
          lookupByKey_isSome_of_mem (hmem k0 (List.mem_cons_self k0 ks))
        have hc0mem := lookupByKey_mem hc0
        obtain ⟨d0, hd0, hd0u⟩ :=
          ih c0 hc0mem (hdfl c0 hc0mem) (p1 ++ "." ++ k0)
        rw [compareMapChildren, hc0, hd0]
        rw [allUnchList]
        simp only [Bool.and_eq_true]
        exact ⟨hd0u, ihk p1 fun x hx => hmem x (List.mem_cons_of_mem k0 hx)⟩
    have hall := hsub (unionKeys ch ch) p fun k0 hk0 => by
      rcases mem_unionKeys.mp hk0 with h | h <;> exact h
    have hany := anyChanged_false_of_allUnch hall
    refine ⟨_, rfl, ?_⟩
    rw [allUnch]
    simp only [DiffNode.type, DiffNode.children, Bool.and_eq_true]
    simp only [DiffNode.type] at hany
    simp only [hany]
    simp [hall]
  | sequence =>
    rw [compareNodes]
    simp only [YamNode.kind, YamNode.children, and_self, if_pos]
    have hsub : ∀ idxs p1, (∀ i ∈ idxs, i < ch.length) →
        allUnchList (compareSeqChildren ch ch idxs p1) = true := by
      intro idxs
      induction idxs with
      | nil => intro p1 _; simp [compareSeqChildren, allUnchList]
      | cons i is' ihk =>
        intro p1 hmem
        have hilt := hmem i (List.mem_cons_self i is')
        have hget : ch[i]? = some ch[i] := List.getElem?_eq_getElem hilt
        have hcmem : ch[i] ∈ ch := List.getElem_mem hilt
        obtain ⟨d0, hd0, hd0u⟩ :=
          ih ch[i] hcmem (hdfl ch[i] hcmem) (p1 ++ "[" ++ toString i ++ "]")
        rw [compareSeqChildren, hget, hd0]
        rw [allUnchList]
        simp only [Bool.and_eq_true]
        exact ⟨hd0u, ihk p1 fun x hx => hmem x (List.mem_cons_of_mem i hx)⟩
    have hall := hsub (List.range (max ch.length ch.length)) p fun i hi => by
      simp at hi
      omega
    have hany := anyChanged_false_of_allUnch hall
    refine ⟨_, rfl, ?_⟩
    rw [allUnch]
    simp only [DiffNode.type, DiffNode.children, Bool.and_eq_true]
    simp only [DiffNode.type] at hany
    simp only [hany]
    simp
    simpa using hall
  | scalar =>
    rw [compareNodes]
    simp only [YamNode.kind, YamNode.value]
    refine ⟨_, rfl, ?_⟩
    rw [allUnch]
    simp [allUnchList, DiffNode.type, DiffNode.children]
  | «alias» =>
    rw [compareNodes]
    simp only [YamNode.kind]
    simp
    rw [allUnch]
    simp [allUnchList, DiffNode.type, DiffNode.children]

theorem Compare_summary_eq (left right : Option YamNode) :
    (Compare left right).summary =
      calculateSummary (compareNodes left right "$") := by
  cases left <;> cases right <;> simp [Compare, compareNodes, calculateSummary]

/-- C1: for every DiffNode in the tree produced by Compare(left, right), the
type is Added iff the left node is absent and Removed iff the right node is
absent; when both sides are present the type is Unchanged or Modified, never
Added or Removed. -/
theorem C1_diff_type_iff_absent (left right : Option YamNode)
    (root x : DiffNode) (hroot : (Compare left right).root = some root)
    (hx : x ∈ root.allNodes) :
    (x.type = .added ↔ x.left = none) ∧
    (x.type = .removed ↔ x.right = none) ∧
    (x.left ≠ none → x.right ≠ none →
      x.type = .unchanged ∨ x.type = .modified) := by
  refine compareNodes_nodeOk left right "$" root ?_ x hx
  rw [← Compare_root_eq]
  exact hroot

/-- A sample scalar node used to instantiate the universally quantified
theorems at concrete inputs. -/
def sampleScalar (v : String) : YamNode := .node .scalar v "" "" 0 0 [] false []

/-- The diff node produced by comparing the sample scalars "a" and "b". -/
def sampleDiffAB : DiffNode :=
  .node (some (sampleScalar "a")) (some (sampleScalar "b")) .modified [] "$"

theorem C1_diff_type_iff_absent_witness :
    (sampleDiffAB.type = .added ↔ sampleDiffAB.left = none) ∧
    (sampleDiffAB.type = .removed ↔ sampleDiffAB.right = none) ∧
    (sampleDiffAB.left ≠ none → sampleDiffAB.right ≠ none →
      sampleDiffAB.type = .unchanged ∨ sampleDiffAB.type = .modified) :=
  C1_diff_type_iff_absent (some (sampleScalar "a")) (some (sampleScalar "b"))
    sampleDiffAB sampleDiffAB
    (by
      rw [Compare_root_eq, compareNodes]
      simp [sampleScalar, sampleDiffAB, YamNode.kind, YamNode.value])
    (by rw [DiffNode.allNodes]; exact List.mem_cons_self _ _)

/-- C2: comparing any tree built from mappings, sequences and scalars
(document-free) with itself yields a root DiffNode of type Unchanged and an
all-zero summary; Compare(nil, nil) yields a nil root and an all-zero
summary. -/
theorem C2_compare_identical (t : YamNode) (hdf : docFree t = true) :
    (∃ d, (Compare (some t) (some t)).root = some d ∧ d.type = .unchanged) ∧
    (Compare (some t) (some t)).summary = ⟨0, 0, 0, 0⟩ ∧
    (Compare none none).root = none ∧
    (Compare none none).summary = ⟨0, 0, 0, 0⟩ := by
  obtain ⟨d, hd, hu⟩ := compareNodes_self t hdf "$"
  have hroot : (Compare (some t) (some t)).root = some d := by
    rw [Compare_root_eq]; exact hd
  refine ⟨⟨d, hroot, allUnch_type hu⟩, ?_, by simp [Compare], by simp [Compare]⟩
  rw [Compare_summary_eq, hd, calculateSummary_some]
  rw [countType_eq_zero_of_allUnch (by decide) d hu]
  rw [countType_eq_zero_of_allUnch (by decide) d hu]
  rw [countType_eq_zero_of_allUnch (by decide) d hu]

theorem C2_compare_identical_witness :
    (∃ d, (Compare (some (sampleScalar "a")) (some (sampleScalar "a"))).root
        = some d ∧ d.type = .unchanged) ∧
    (Compare (some (sampleScalar "a")) (some (sampleScalar "a"))).summary
        = ⟨0, 0, 0, 0⟩ ∧
    (Compare none none).root = none ∧
    (Compare none none).summary = ⟨0, 0, 0, 0⟩ :=
  C2_compare_identical (sampleScalar "a")
    (by
      rw [docFree]
      simp [docFreeList, sampleScalar, YamNode.kind, YamNode.children])

theorem unionKeys_nodup (lc rc : List YamNode) : (unionKeys lc rc).Nodup :=
  (List.perm_insertionSort _ _).nodup_iff.mpr (List.nodup_dedup _)

theorem countTypeList_mapChildren (ty : DiffType) (lc rc : List YamNode)
    (p : String) :
    ∀ keys, countTypeList ty (compareMapChildren lc rc keys p) =
      (keys.map fun k =>
        match compareNodes (lookupByKey lc k) (lookupByKey rc k)
            (p ++ "." ++ k) with
        | some d => countType ty d
        | none => 0).sum := by
  intro keys
  induction keys with
  | nil => simp [compareMapChildren, countTypeList]
  | cons k ks ih =>
    rw [compareMapChildren]
    cases h : compareNodes (lookupByKey lc k) (lookupByKey rc k)
        (p ++ "." ++ k) with
    | none => simp [countTypeList, ih, h]
    | some d => simp [countTypeList, ih, h]

theorem sum_map_single (ks : List String) (f : String → Nat) (k0 : String)
    (hnd : ks.Nodup) (hmem : k0 ∈ ks)
    (hzero : ∀ k ∈ ks, k ≠ k0 → f k = 0) : (ks.map f).sum = f k0 := by
  induction ks with
  | nil => simp at hmem
  | cons k ks ih =>
    rw [List.nodup_cons] at hnd
    rcases List.mem_cons.mp hmem with h | h
    · subst h
      have : ∀ k ∈ ks, f k = 0 := fun k hk =>
        hzero k (List.mem_cons_of_mem _ hk) fun he => hnd.1 (he ▸ hk)
      have hs : (ks.map f).sum = 0 := by
        rw [List.sum_eq_zero_iff]
        intro x hx
        rcases List.mem_map.mp hx with ⟨k1, hk1, hfk⟩
        rw [← hfk]
        exact this k1 hk1
      simp [hs]
    · have hk0 : k ≠ k0 := fun he => hnd.1 (he ▸ h)
      rw [List.map_cons, List.sum_cons,
        hzero k (List.mem_cons_self _ _) hk0,
        ih hnd.2 h fun x hx hne => hzero x (List.mem_cons_of_mem _ hx) hne]
      omega

theorem mem_compareMapChildren {lc rc : List YamNode} {p k0 : String}
    {d0 : DiffNode}
    (hd0 : compareNodes (lookupByKey lc k0) (lookupByKey rc k0)
      (p ++ "." ++ k0) = some d0) :
    ∀ keys, k0 ∈ keys → d0 ∈ compareMapChildren lc rc keys p := by
  intro keys
  induction keys with
  | nil => intro h; simp at h
  | cons k ks ih =>
    intro hmem
    rw [compareMapChildren]
    rcases List.mem_cons.mp hmem with h | h
    · subst h
      rw [hd0]
      exact List.mem_cons_self _ _
    · cases hc : compareNodes (lookupByKey lc k) (lookupByKey rc k)
          (p ++ "." ++ k) with
      | none => exact ih h
      | some d => exact List.mem_cons_of_mem _ (ih h)

theorem compareNodes_mapping {l r : YamNode} (p : String)
    (hl : l.kind = .mapping) (hr : r.kind = .mapping) :
    compareNodes (some l) (some r) p =
      some (.node (some l) (some r)
        (if (compareMapChildren l.children r.children
            (unionKeys l.children r.children) p).any
            (fun c => c.type ≠ .unchanged) then .modified else .unchanged)
        (compareMapChildren l.children r.children
          (unionKeys l.children r.children) p) p) := by
  rw [compareNodes]
  simp [hl, hr]

theorem compareNodes_scalar {l r : YamNode} (p : String)
    (hl : l.kind = .scalar) (hr : r.kind = .scalar) :
    compareNodes (some l) (some r) p =
      some (.node (some l) (some r)
        (if l.value = r.value then .unchanged else .modified) [] p) := by
  rw [compareNodes]
  simp [hl, hr]

/-- C3: the summary counts every DiffNode whose type is non-Unchanged,
containers included, and total = added + removed + modified; a mapping with
exactly one changed scalar child and all other children unchanged yields
modified = 2 (parent and child); adding exactly one key yields added = 1,
modified = 1 (the parent), total = 2. -/
theorem C3_summary_counts :
    (∀ d : DiffNode, calculateSummary (some d) =
      ⟨countType .added d, countType .removed d, countType .modified d,
       countType .added d + countType .removed d + countType .modified d⟩) ∧
    (∀ (l r : YamNode) (k0 : String) (cl cr : YamNode),
      l.kind = .mapping → r.kind = .mapping →
      k0 ∈ unionKeys l.children r.children →
      lookupByKey l.children k0 = some cl →
      lookupByKey r.children k0 = some cr →
      cl.kind = .scalar → cr.kind = .scalar → cl.value ≠ cr.value →
      (∀ k ∈ unionKeys l.children r.children, k ≠ k0 →
        ∃ c, lookupByKey l.children k = some c ∧
          lookupByKey r.children k = some c ∧ docFree c = true) →
      (Compare (some l) (some r)).summary = ⟨0, 0, 2, 2⟩) ∧
    (∀ (l r : YamNode) (k0 : String) (cr : YamNode),
      l.kind = .mapping → r.kind = .mapping →
      k0 ∈ unionKeys l.children r.children →
      lookupByKey l.children k0 = none →
      lookupByKey r.children k0 = some cr →
      (∀ k ∈ unionKeys l.children r.children, k ≠ k0 →
        ∃ c, lookupByKey l.children k = some c ∧
          lookupByKey r.children k = some c ∧ docFree c = true) →
      (Compare (some l) (some r)).summary = ⟨1, 0, 1, 2⟩) := by
  refine ⟨calculateSummary_some, ?_, ?_⟩
  · intro l r k0 cl cr hl hr hk0 hcl hcr hclk hcrk hv hrest
    have hd0 : compareNodes (lookupByKey l.children k0)
        (lookupByKey r.children k0) ("$" ++ "." ++ k0) =
        some (.node (some cl) (some cr) .modified [] ("$" ++ "." ++ k0)) := by
      rw [hcl, hcr, compareNodes_scalar _ hclk hcrk]
      simp [hv]
    have hcnt : ∀ ty, countType ty
        (DiffNode.node (some cl) (some cr) .modified [] ("$" ++ "." ++ k0)) =
        if DiffType.modified = ty then 1 else 0 := by
      intro ty
      rw [countType]
      simp [DiffNode.type, DiffNode.children, countTypeList]
    have hsum : ∀ ty, ty ≠ DiffType.unchanged →
        countTypeList ty (compareMapChildren l.children r.children
          (unionKeys l.children r.children) "$") =
          if DiffType.modified = ty then 1 else 0 := by
      intro ty hty
      rw [countTypeList_mapChildren]
      rw [sum_map_single _ _ k0 (unionKeys_nodup _ _) hk0 ?_]
      · rw [hd0]
        exact hcnt ty
      · intro k hk hne
        obtain ⟨c, hlc, hrc, hdf⟩ := hrest k hk hne
        obtain ⟨dk, hdk, hdku⟩ := compareNodes_self c hdf ("$" ++ "." ++ k)
        rw [hlc, hrc, hdk]
        exact countType_eq_zero_of_allUnch hty dk hdku
    have hanytrue : ((compareMapChildren l.children r.children
        (unionKeys l.children r.children) "$").any
        fun c => c.type ≠ .unchanged) = true := by
      rw [List.any_eq_true]
      exact ⟨_, mem_compareMapChildren hd0 _ hk0, by simp [DiffNode.type]⟩
    rw [Compare_summary_eq, compareNodes_mapping "$" hl hr,
      calculateSummary_some]
    rw [countType, countType, countType]
    simp only [DiffNode.type, DiffNode.children]
    simp only [DiffNode.type] at hanytrue
    simp only [hanytrue]
    rw [hsum .added (by decide), hsum .removed (by decide),
      hsum .modified (by decide)]
    simp
  · intro l r k0 cr hl hr hk0 hcl hcr hrest
    have hd0 : compareNodes (lookupByKey l.children k0)
        (lookupByKey r.children k0) ("$" ++ "." ++ k0) =
        some (.node none (some cr) .added [] ("$" ++ "." ++ k0)) := by
      rw [hcl, hcr, compareNodes]
    have hcnt : ∀ ty, countType ty
        (DiffNode.node none (some cr) .added [] ("$" ++ "." ++ k0)) =
        if DiffType.added = ty then 1 else 0 := by
      intro ty
      rw [countType]
      simp [DiffNode.type, DiffNode.children, countTypeList]
    have hsum : ∀ ty, ty ≠ DiffType.unchanged →
        countTypeList ty (compareMapChildren l.children r.children
          (unionKeys l.children r.children) "$") =
          if DiffType.added = ty then 1 else 0 := by
      intro ty hty
      rw [countTypeList_mapChildren]
      rw [sum_map_single _ _ k0 (unionKeys_nodup _ _) hk0 ?_]
      · rw [hd0]
        exact hcnt ty
      · intro k hk hne
        obtain ⟨c, hlc, hrc, hdf⟩ := hrest k hk hne
        obtain ⟨dk, hdk, hdku⟩ := compareNodes_self c hdf ("$" ++ "." ++ k)
        rw [hlc, hrc, hdk]
        exact countType_eq_zero_of_allUnch hty dk hdku
    have hanytrue : ((compareMapChildren l.children r.children
        (unionKeys l.children r.children) "$").any
        fun c => c.type ≠ .unchanged) = true := by
      rw [List.any_eq_true]
      exact ⟨_, mem_compareMapChildren hd0 _ hk0, by simp [DiffNode.type]⟩
    rw [Compare_summary_eq, compareNodes_mapping "$" hl hr,
      calculateSummary_some]
    rw [countType, countType, countType]
    simp only [DiffNode.type, DiffNode.children]
    simp only [DiffNode.type] at hanytrue
    simp only [hanytrue]
    rw [hsum .added (by decide), hsum .removed (by decide),
      hsum .modified (by decide)]
    simp

/-- A sample mapping node for concrete instantiations. -/
def mkMapping (cs : List YamNode) : YamNode :=
  .node .mapping "" "" "" 0 0 [] false cs

/-- A sample keyed scalar child for concrete instantiations. -/
def keyedScalar (k v : String) : YamNode := .node .scalar v "" k 0 0 [] false []

theorem C3_summary_counts_witness :
    calculateSummary (some sampleDiffAB) = ⟨0, 0, 1, 1⟩ ∧
    (Compare (some (mkMapping [keyedScalar "k" "1"]))
      (some (mkMapping [keyedScalar "k" "2"]))).summary = ⟨0, 0, 2, 2⟩ ∧
    (Compare (some (mkMapping []))
      (some (mkMapping [keyedScalar "k" "2"]))).summary = ⟨1, 0, 1, 2⟩ := by
  obtain ⟨h1, h2, h3⟩ := C3_summary_counts
  refine ⟨?_, ?_, ?_⟩
  · rw [h1 sampleDiffAB]
    simp [countType, countTypeList, sampleDiffAB, DiffNode.type,
      DiffNode.children]
  · refine h2 (mkMapping [keyedScalar "k" "1"]) (mkMapping [keyedScalar "k" "2"])
      "k" (keyedScalar "k" "1") (keyedScalar "k" "2") rfl rfl (by decide)
      rfl rfl rfl rfl (by decide) ?_
    intro k hk hne
    exfalso
    apply hne
    have he : unionKeys (mkMapping [keyedScalar "k" "1"]).children
        (mkMapping [keyedScalar "k" "2"]).children = ["k"] := by decide
    rw [he] at hk
    simpa using hk
  · refine h3 (mkMapping []) (mkMapping [keyedScalar "k" "2"])
      "k" (keyedScalar "k" "2") rfl rfl (by decide) rfl rfl ?_
    intro k hk hne
    exfalso
    apply hne
    have he : unionKeys (mkMapping []).children
        (mkMapping [keyedScalar "k" "2"]).children = ["k"] := by decide
    rw [he] at hk
    simpa using hk

theorem lexLe_total : ∀ as bs : List Char,
    lexLe as bs = true ∨ lexLe bs as = true := by
  intro as
  induction as with
  | nil => intro bs; left; rfl
  | cons a as ih =>
    intro bs
    cases bs with
    | nil => right; rfl
    | cons b bs =>
      rw [lexLe, lexLe]
      by_cases h1 : a.toNat < b.toNat
      · left; simp [h1]
      · by_cases h2 : b.toNat < a.toNat
        · right; simp [h1, h2]
        · simp [h1, h2]
          exact ih bs

theorem lexLe_trans : ∀ as bs cs : List Char,
    lexLe as bs = true → lexLe bs cs = true → lexLe as cs = true := by
  intro as
  induction as with
  | nil => intros; rfl
  | cons a as ih =>
    intro bs cs h1 h2
    cases bs with
    | nil => simp [lexLe] at h1
    | cons b bs =>
      cases cs with
      | nil => simp [lexLe] at h2
      | cons c cs =>
        rw [lexLe] at h1 h2 ⊢
        split_ifs at h1 h2 ⊢ with g1 g2 g3 g4 g5 g6 <;>
          first
          | rfl
          | omega
          | (exact ih bs cs h1 h2)

instance : IsTotal String (fun a b => strLeB a b = true) :=
  ⟨fun a b => lexLe_total a.data b.data⟩

instance : IsTrans String (fun a b => strLeB a b = true) :=
  ⟨fun a b c => lexLe_trans a.data b.data c.data⟩

theorem unionKeys_sorted (lc rc : List YamNode) :
    List.Sorted (fun a b => strLeB a b = true) (unionKeys lc rc) :=
  List.sorted_insertionSort _ _

theorem compareNodes_bothsome_path (l r : YamNode) (p : String)
    (hd : l.kind ≠ .document ∨ r.kind ≠ .document) :
    ∃ d, compareNodes (some l) (some r) p = some d ∧ d.path = p := by
  rw [compareNodes]
  by_cases h1 : l.kind = .mapping ∧ r.kind = .mapping
  · rw [if_pos h1]
    exact ⟨_, rfl, rfl⟩
  · rw [if_neg h1]
    by_cases h2 : l.kind = .sequence ∧ r.kind = .sequence
    · rw [if_pos h2]
      exact ⟨_, rfl, rfl⟩
    · rw [if_neg h2]
      by_cases h3 : l.kind = .scalar ∧ r.kind = .scalar
      · rw [if_pos h3]
        exact ⟨_, rfl, rfl⟩
      · rw [if_neg h3]
        by_cases h4 : l.kind ≠ r.kind
        · rw [if_pos h4]
          exact ⟨_, rfl, rfl⟩
        · rw [if_neg h4]
          by_cases h5 : l.kind = .document ∧ r.kind = .document
          · exact absurd h5 (by tauto)
          · rw [if_neg h5]
            exact ⟨_, rfl, rfl⟩

theorem compareMapChildren_paths (lc rc : List YamNode) (p : String) :
    ∀ keys,
      (∀ k ∈ keys, ∃ d, compareNodes (lookupByKey lc k) (lookupByKey rc k)
        (p ++ "." ++ k) = some d ∧ d.path = p ++ "." ++ k) →
      (compareMapChildren lc rc keys p).map DiffNode.path =
        keys.map fun k => p ++ "." ++ k := by
  intro keys
  induction keys with
  | nil => intro _; simp [compareMapChildren]
  | cons k ks ih =>
    intro hall
    obtain ⟨d, hd, hp⟩ := hall k (List.mem_cons_self _ _)
    rw [compareMapChildren, hd]
    simp only [List.map_cons]
    rw [ih fun x hx => hall x (List.mem_cons_of_mem _ hx), hp]

/-- C4: when both nodes are mappings, compareNodes visits the union of the
keys of both sides, each distinct key exactly once, in sorted order (so the
children list is deterministic); each visited key contributes exactly one
child whose path extends the parent path with that key. -/
theorem C4_mapping_keys (l r : YamNode) (p : String)
    (hl : l.kind = .mapping) (hr : r.kind = .mapping) :
    (∀ k, k ∈ unionKeys l.children r.children ↔
      ((∃ c ∈ l.children, c.key = k) ∨ (∃ c ∈ r.children, c.key = k))) ∧
    (unionKeys l.children r.children).Nodup ∧
    List.Sorted (fun a b => strLeB a b = true)
      (unionKeys l.children r.children) ∧
    ((∀ c ∈ l.children, c.kind ≠ .document) →
     (∀ c ∈ r.children, c.kind ≠ .document) →
      ∃ d, compareNodes (some l) (some r) p = some d ∧
        d.children.map DiffNode.path =
          (unionKeys l.children r.children).map fun k => p ++ "." ++ k) := by
  refine ⟨?_, unionKeys_nodup _ _, unionKeys_sorted _ _, ?_⟩
  · intro k
    rw [mem_unionKeys]
    simp only [List.mem_map]
  · intro hdl hdr
    refine ⟨_, compareNodes_mapping p hl hr, ?_⟩
    rw [DiffNode.children]
    apply compareMapChildren_paths
    intro k hk
    cases hL : lookupByKey l.children k with
    | none =>
      cases hR : lookupByKey r.children k with
      | none =>
        exfalso
        rcases mem_unionKeys.mp hk with h | h
        · obtain ⟨c, hc⟩ := lookupByKey_isSome_of_mem h
          rw [hL] at hc
          cases hc
        · obtain ⟨c, hc⟩ := lookupByKey_isSome_of_mem h
          rw [hR] at hc
          cases hc
      | some cR =>
        rw [compareNodes]
        exact ⟨_, rfl, rfl⟩
    | some cL =>
      cases hR : lookupByKey r.children k with
      | none =>
        rw [compareNodes]
        exact ⟨_, rfl, rfl⟩
      | some cR =>
        exact compareNodes_bothsome_path cL cR _
          (.inl (hdl cL (lookupByKey_mem hL)))

theorem C4_mapping_keys_witness :
    ("k" ∈ unionKeys (mkMapping [keyedScalar "k" "1"]).children
        (mkMapping [keyedScalar "j" "2"]).children ↔
      ((∃ c ∈ (mkMapping [keyedScalar "k" "1"]).children, c.key = "k") ∨
       (∃ c ∈ (mkMapping [keyedScalar "j" "2"]).children, c.key = "k"))) ∧
    (unionKeys (mkMapping [keyedScalar "k" "1"]).children
      (mkMapping [keyedScalar "j" "2"]).children).Nodup ∧
    List.Sorted (fun a b => strLeB a b = true)
      (unionKeys (mkMapping [keyedScalar "k" "1"]).children
        (mkMapping [keyedScalar "j" "2"]).children) ∧
    (∃ d, compareNodes (some (mkMapping [keyedScalar "k" "1"]))
        (some (mkMapping [keyedScalar "j" "2"])) "$" = some d ∧
      d.children.map DiffNode.path =
        (unionKeys (mkMapping [keyedScalar "k" "1"]).children
          (mkMapping [keyedScalar "j" "2"]).children).map
          fun k => "$" ++ "." ++ k) := by
  obtain ⟨h1, h2, h3, h4⟩ := C4_mapping_keys (mkMapping [keyedScalar "k" "1"])
    (mkMapping [keyedScalar "j" "2"]) "$" rfl rfl
  exact ⟨h1 "k", h2, h3, h4 (by decide) (by decide)⟩

/-- A sample alias node used for concrete instantiations. -/
def sampleAlias (v : String) : YamNode := .node .alias v "" "" 0 0 [] false []

/-- C5 (amended): a scalar/scalar pair is Modified exactly when the two
string values differ (exact comparison) and Unchanged otherwise; an
alias/alias pair falls through to the defensive fallback and is always
Unchanged with no children, regardless of its literal text. -/
theorem C5_scalar_alias_compare (l r : YamNode) (p : String) :
    (l.kind = .scalar → r.kind = .scalar →
      ∃ d, compareNodes (some l) (some r) p = some d ∧
        (d.type = .modified ↔ l.value ≠ r.value) ∧
        (d.type = .unchanged ↔ l.value = r.value) ∧ d.children = []) ∧
    (l.kind = .alias → r.kind = .alias →
      compareNodes (some l) (some r) p =
        some (.node (some l) (some r) .unchanged [] p)) := by
  constructor
  · intro hl hr
    refine ⟨_, compareNodes_scalar p hl hr, ?_, ?_, rfl⟩
    · by_cases hv : l.value = r.value <;> simp [hv, DiffNode.type]
    · by_cases hv : l.value = r.value <;> simp [hv, DiffNode.type]
  · intro hl hr
    rw [compareNodes]
    simp [hl, hr]

theorem C5_scalar_alias_compare_witness :
    (∃ d, compareNodes (some (sampleScalar "a")) (some (sampleScalar "b")) "$"
        = some d ∧
      (d.type = .modified ↔
        (sampleScalar "a").value ≠ (sampleScalar "b").value) ∧
      (d.type = .unchanged ↔
        (sampleScalar "a").value = (sampleScalar "b").value) ∧
      d.children = []) ∧
    compareNodes (some (sampleAlias "x")) (some (sampleAlias "y")) "$" =
      some (.node (some (sampleAlias "x")) (some (sampleAlias "y"))
        .unchanged [] "$") :=
  ⟨(C5_scalar_alias_compare (sampleScalar "a") (sampleScalar "b") "$").1
      rfl rfl,
   (C5_scalar_alias_compare (sampleAlias "x") (sampleAlias "y") "$").2
      rfl rfl⟩

/-- C5 counterexample: two alias nodes whose literal texts differ compare as
Unchanged, not Modified, so aliases are not compared the way scalars are. -/
theorem C5_alias_counterexample :
    (sampleAlias "x").value ≠ (sampleAlias "y").value ∧
    compareNodes (some (sampleAlias "x")) (some (sampleAlias "y")) "$" =
      some (.node (some (sampleAlias "x")) (some (sampleAlias "y"))
        .unchanged [] "$") := by
  constructor
  · decide
  · rw [compareNodes]
    simp [sampleAlias, YamNode.kind]

mutual

/-- Flatten from internal/parser/parser.go: Walk materialized into the
pre-order list of all nodes (the visit function always returns true). -/
def Flatten (n : YamNode) : List YamNode := n :: FlattenList n.children
termination_by (sizeOf n, 0)
decreasing_by
  apply Prod.Lex.left
  exact sizeOf_children_lt n

/-- The child loop of Flatten. -/
def FlattenList (nodes : List YamNode) : List YamNode :=
  match nodes with
  | [] => []
  | c :: cs => Flatten c ++ FlattenList cs
termination_by (sizeOf nodes, nodes.length)
decreasing_by
  · apply Prod.Lex.left
    simp only [List.cons.sizeOf_spec]
    omega
  · apply Prod.Lex.left
    have := sizeOf_yam_pos c
    simp only [List.cons.sizeOf_spec]
    omega

end

mutual

/-- FlattenVisible from internal/parser/parser.go: WalkVisible materialized;
a collapsed node is visited but its children are not. -/
def FlattenVisible (n : YamNode) : List YamNode :=
  n :: (if n.collapsed then [] else FlattenVisibleList n.children)
termination_by (sizeOf n, 0)
decreasing_by
  apply Prod.Lex.left
  exact sizeOf_children_lt n

/-- The child loop of FlattenVisible. -/
def FlattenVisibleList (nodes : List YamNode) : List YamNode :=
  match nodes with
  | [] => []
  | c :: cs => FlattenVisible c ++ FlattenVisibleList cs
termination_by (sizeOf nodes, nodes.length)
decreasing_by
  · apply Prod.Lex.left
    simp only [List.cons.sizeOf_spec]
    omega
  · apply Prod.Lex.left
    have := sizeOf_yam_pos c
    simp only [List.cons.sizeOf_spec]
    omega

end

mutual

/-- expandAll from internal/ui/model.go: Walk over the whole tree setting
`Collapsed = false` on every node. -/
def expandAllTree (n : YamNode) : YamNode :=
  .node n.kind n.value n.tag n.key n.index n.depth n.path false
    (expandAllList n.children)
termination_by (sizeOf n, 0)
decreasing_by
  apply Prod.Lex.left
  exact sizeOf_children_lt n

/-- The child loop of expandAll. -/
def expandAllList (nodes : List YamNode) : List YamNode :=
  match nodes with
  | [] => []
  | c :: cs => expandAllTree c :: expandAllList cs
termination_by (sizeOf nodes, nodes.length)
decreasing_by
  · apply Prod.Lex.left
    simp only [List.cons.sizeOf_spec]
    omega
  · apply Prod.Lex.left
    have := sizeOf_yam_pos c
    simp only [List.cons.sizeOf_spec]
    omega

end

mutual

/-- collapseAll from internal/ui/model.go: Walk over the whole tree setting
`Collapsed = true` on every container node that has children and whose depth
is positive (depth-0 nodes are exempt). -/
def collapseAllTree (n : YamNode) : YamNode :=
  .node n.kind n.value n.tag n.key n.index n.depth n.path
    (if n.isContainer ∧ n.hasChildren ∧ 0 < n.depth then true
     else n.collapsed)
    (collapseAllList n.children)
termination_by (sizeOf n, 0)
decreasing_by
  apply Prod.Lex.left
  exact sizeOf_children_lt n

/-- The child loop of collapseAll. -/
def collapseAllList (nodes : List YamNode) : List YamNode :=
  match nodes with
  | [] => []
  | c :: cs => collapseAllTree c :: collapseAllList cs
termination_by (sizeOf nodes, nodes.length)
decreasing_by
  · apply Prod.Lex.left
    simp only [List.cons.sizeOf_spec]
    omega
  · apply Prod.Lex.left
    have := sizeOf_yam_pos c
    simp only [List.cons.sizeOf_spec]
    omega

end

theorem collapseAllList_eq_map (cs : List YamNode) :
    collapseAllList cs = cs.map collapseAllTree := by
  induction cs with
  | nil => rw [collapseAllList]; rfl
  | cons c cs ih => rw [collapseAllList, ih]; rfl

theorem expandAllList_eq_map (cs : List YamNode) :
    expandAllList cs = cs.map expandAllTree := by
  induction cs with
  | nil => rw [expandAllList]; rfl
  | cons c cs ih => rw [expandAllList, ih]; rfl

theorem mem_FlattenList {x : YamNode} {cs : List YamNode} :
    x ∈ FlattenList cs ↔ ∃ c ∈ cs, x ∈ Flatten c := by
  induction cs with
  | nil => rw [FlattenList]; simp
  | cons c cs ih =>
    rw [FlattenList]
    simp only [List.mem_append, ih, List.mem_cons]
    constructor
    · rintro (h | ⟨c1, hc1, hx⟩)
      · exact ⟨c, .inl rfl, h⟩
      · exact ⟨c1, .inr hc1, hx⟩
    · rintro ⟨c1, hc1 | hc1, hx⟩
      · exact .inl (hc1 ▸ hx)
      · exact .inr ⟨c1, hc1, hx⟩

theorem flattenVisibleList_eq_flattenList (cs : List YamNode)
    (h : ∀ c ∈ cs, FlattenVisible c = Flatten c) :
    FlattenVisibleList cs = FlattenList cs := by
  induction cs with
  | nil => rw [FlattenVisibleList, FlattenList]
  | cons c cs ih =>
    rw [FlattenVisibleList, FlattenList]
    rw [h c (List.mem_cons_self _ _),
      ih fun x hx => h x (List.mem_cons_of_mem _ hx)]

theorem flattenVisible_expandAll :
    ∀ n : YamNode, FlattenVisible (expandAllTree n) = Flatten (expandAllTree n) := by
  apply YamNode.rec_mem_yam
  intro k v t ky i d p c ch ih
  rw [expandAllTree]
  rw [FlattenVisible, Flatten]
  simp only [YamNode.collapsed, YamNode.children, Bool.false_eq_true,
    if_false]
  rw [expandAllList_eq_map]
  rw [flattenVisibleList_eq_flattenList]
  intro x hx
  rcases List.mem_map.mp hx with ⟨c0, hc0, he⟩
  exact he ▸ ih c0 hc0

theorem collapseAll_sets_flags :
    ∀ n : YamNode, ∀ x ∈ Flatten (collapseAllTree n),
      x.isContainer = true → x.hasChildren = true → 0 < x.depth →
        x.collapsed = true := by
  apply YamNode.rec_mem_yam
  intro k v t ky i d p c ch ih x hx h1 h2 h3
  rw [collapseAllTree] at hx
  rw [Flatten] at hx
  rcases List.mem_cons.mp hx with hx | hx
  · subst hx
    have hch : ch ≠ [] := by
      intro he
      subst he
      rw [collapseAllList_eq_map] at h2
      simp [YamNode.hasChildren, YamNode.children] at h2
    have hc1 : (YamNode.node k v t ky i d p c ch).isContainer = true := h1
    have hc3 : 0 < (YamNode.node k v t ky i d p c ch).depth := h3
    have hc2 : (YamNode.node k v t ky i d p c ch).hasChildren = true := by
      simp [YamNode.hasChildren, YamNode.children, hch]
    simp only [YamNode.collapsed]
    rw [if_pos ⟨hc1, hc2, hc3⟩]
  · simp only [YamNode.children] at hx
    rw [collapseAllList_eq_map] at hx
    rcases mem_FlattenList.mp hx with ⟨c1, hc1, hx1⟩
    rcases List.mem_map.mp hc1 with ⟨c0, hc0, he⟩
    exact ih c0 hc0 x (he ▸ hx1) h1 h2 h3

/-- C7: collapseAll sets collapsed on every container node with children at
positive depth and leaves depth-0 nodes (the root) untouched, so an
uncollapsed root remains uncollapsed; after expandAll, flattenVisible yields
exactly the flatten of the full tree. -/
theorem C7_fold_invariant (t : YamNode) :
    (∀ x ∈ Flatten (collapseAllTree t),
      x.isContainer = true → x.hasChildren = true → 0 < x.depth →
        x.collapsed = true) ∧
    (t.depth = 0 → (collapseAllTree t).collapsed = t.collapsed) ∧
    FlattenVisible (expandAllTree t) = Flatten (expandAllTree t) := by
  refine ⟨collapseAll_sets_flags t, ?_, flattenVisible_expandAll t⟩
  intro h0
  rw [collapseAllTree]
  simp only [YamNode.collapsed]
  rw [if_neg]
  intro hcond
  rw [h0] at hcond
  exact absurd hcond.2.2 (by omega)

/-- A depth-2 scalar child for concrete fold scenarios. -/
def sampleDeepChild : YamNode := .node .scalar "1" "" "x" 0 2 [] false []

/-- A depth-1 inner mapping for concrete fold scenarios. -/
def sampleInner : YamNode :=
  .node .mapping "" "" "k" 0 1 [] false [sampleDeepChild]

/-- A depth-0 root mapping for concrete fold scenarios. -/
def sampleTree : YamNode := .node .mapping "" "" "" 0 0 [] false [sampleInner]

theorem C7_fold_invariant_witness :
    (YamNode.node .mapping "" "" "k" 0 1 [] true [sampleDeepChild]).collapsed
        = true ∧
    (collapseAllTree sampleTree).collapsed = sampleTree.collapsed ∧
    FlattenVisible (expandAllTree sampleTree) =
      Flatten (expandAllTree sampleTree) := by
  obtain ⟨h1, h2, h3⟩ := C7_fold_invariant sampleTree
  refine ⟨h1 _ ?_ (by decide) (by decide) (by decide), h2 rfl, h3⟩
  rw [show collapseAllTree sampleTree =
      .node .mapping "" "" "" 0 0 [] false
        [.node .mapping "" "" "k" 0 1 [] true [sampleDeepChild]] from by
    rw [collapseAllTree, collapseAllList_eq_map]
    simp [sampleTree, sampleInner, sampleDeepChild, collapseAllTree,
      collapseAllList_eq_map, YamNode.kind, YamNode.value, YamNode.tag,
      YamNode.key, YamNode.index, YamNode.depth, YamNode.path,
      YamNode.collapsed, YamNode.children, YamNode.isContainer,
      YamNode.hasChildren]]
  rw [Flatten]
  simp [YamNode.children, Flatten, FlattenList]

/-- RawNode models the yaml.Node input of convertNode: a kind, the scalar
value (for key nodes and scalars), the tag, and the flat Content list (for
mappings it alternates key nodes and value nodes, as in yaml.v3). -/
inductive RawNode where
  | mk (kind : NodeKind) (value : String) (tag : String)
      (content : List RawNode)

/-- Projection for the raw kind. -/
def RawNode.kind : RawNode → NodeKind
  | .mk k _ _ _ => k

/-- Projection for the raw value. -/
def RawNode.value : RawNode → String
  | .mk _ v _ _ => v

/-- Projection for the raw tag. -/
def RawNode.tag : RawNode → String
  | .mk _ _ t _ => t

/-- Projection for the raw content. -/
def RawNode.content : RawNode → List RawNode
  | .mk _ _ _ c => c

/-- Models the assignment `child.Key = key` in convertNode. -/
def YamNode.setKey (n : YamNode) (k : String) : YamNode :=
  match n with
  | .node kd v t _ i d p c ch => .node kd v t k i d p c ch

/-- Models the assignment `child.Index = i` in convertNode. -/
def YamNode.setIndex (n : YamNode) (i : Nat) : YamNode :=
  match n with
  | .node kd v t k _ d p c ch => .node kd v t k i d p c ch

theorem sizeOf_raw_mem_lt {c : RawNode} {cs : List RawNode} (h : c ∈ cs) :
    sizeOf c < sizeOf cs := List.sizeOf_lt_of_mem h

mutual

/-- convertNode from internal/parser/parser.go: converts a raw yaml node to
a YamNode, populating Path and Depth top-down.  A Document passes its path
and depth through to its single child unchanged; Mapping and Sequence
children get depth+1 and an extended path.  (The parent back-pointer is
dropped; a malformed odd-length mapping content, which would panic in Go, is
truncated.) -/
def convertNode (raw : RawNode) (path : List String) (depth : Nat) :
    YamNode :=
  match raw with
  | .mk k v t content =>
    match k with
    | .document =>
      .node k v t "" 0 depth path false
        (match content with
         | c :: _ => [convertNode c path depth]
         | [] => [])
    | .mapping =>
      .node k v t "" 0 depth path false (convertPairs content path depth 0)
    | .sequence =>
      .node k v t "" 0 depth path false (convertItems content path depth 0)
    | _ => .node k v t "" 0 depth path false []
termination_by sizeOf raw
decreasing_by
  all_goals
    simp only [RawNode.mk.sizeOf_spec, List.cons.sizeOf_spec]
    omega

/-- The Mapping loop of convertNode: Content holds key/value node pairs;
`i` is the running pair index (Go's `i/2`). -/
def convertPairs (content : List RawNode) (path : List String) (depth : Nat)
    (i : Nat) : List YamNode :=
  match content with
  | keyNode :: valNode :: rest =>
    ((convertNode valNode (path ++ [keyNode.value])
        (depth + 1)).setKey keyNode.value).setIndex i
      :: convertPairs rest path depth (i + 1)
  | _ => []
termination_by sizeOf content
decreasing_by
  · simp only [List.cons.sizeOf_spec]
    omega
  · simp only [List.cons.sizeOf_spec]
    omega

/-- The Sequence loop of convertNode: `i` is the running element index. -/
def convertItems (content : List RawNode) (path : List String) (depth : Nat)
    (i : Nat) : List YamNode :=
  match content with
  | item :: rest =>
    ((convertNode item (path ++ [toString i]) (depth + 1)).setIndex i)
      :: convertItems rest path depth (i + 1)
  | [] => []
termination_by sizeOf content
decreasing_by
  · simp only [List.cons.sizeOf_spec]
    omega
  · simp only [List.cons.sizeOf_spec]
    omega

end

/-- The parent/child depth-and-path relation of a converted node: mapping
children sit one level deeper with the path extended by their key, sequence
children one level deeper with the path extended by their index, and the
Document child inherits depth and path unchanged. -/
def childRel (m : YamNode) : Prop :=
  ∀ c ∈ m.children,
    (m.kind = .mapping → c.depth = m.depth + 1 ∧ c.path = m.path ++ [c.key]) ∧
    (m.kind = .sequence →
      c.depth = m.depth + 1 ∧ c.path = m.path ++ [toString c.index]) ∧
    (m.kind = .document → c.depth = m.depth ∧ c.path = m.path)

/-- Nested induction principle for `RawNode`. -/
theorem RawNode.rec_mem_raw {P : RawNode → Prop}
    (h : ∀ k v t content, (∀ c ∈ content, P c) → P (.mk k v t content)) :
    ∀ n, P n
  | .mk k v t content => h k v t content fun c hc =>
      have : sizeOf c < sizeOf (RawNode.mk k v t content) := by
        have h1 : sizeOf c < sizeOf content := List.sizeOf_lt_of_mem hc
        simp only [RawNode.mk.sizeOf_spec]
        omega
      RawNode.rec_mem_raw h c
termination_by n => sizeOf n

theorem convertNode_depth (raw : RawNode) (path : List String) (depth : Nat) :
    (convertNode raw path depth).depth = depth := by
  cases raw with
  | mk k v t content =>
    cases k <;> cases content <;> simp [convertNode, YamNode.depth]

theorem convertNode_path (raw : RawNode) (path : List String) (depth : Nat) :
    (convertNode raw path depth).path = path := by
  cases raw with
  | mk k v t content =>
    cases k <;> cases content <;> simp [convertNode, YamNode.path]

theorem setKey_setIndex_depth (n : YamNode) (k : String) (i : Nat) :
    ((n.setKey k).setIndex i).depth = n.depth := by
  cases n; rfl

theorem setKey_setIndex_path (n : YamNode) (k : String) (i : Nat) :
    ((n.setKey k).setIndex i).path = n.path := by
  cases n; rfl

theorem setKey_setIndex_key (n : YamNode) (k : String) (i : Nat) :
    ((n.setKey k).setIndex i).key = k := by
  cases n; rfl

theorem setKey_setIndex_index (n : YamNode) (k : String) (i : Nat) :
    ((n.setKey k).setIndex i).index = i := by
  cases n; rfl

theorem setIndex_depth (n : YamNode) (i : Nat) :
    (n.setIndex i).depth = n.depth := by
  cases n; rfl

theorem setIndex_path (n : YamNode) (i : Nat) :
    (n.setIndex i).path = n.path := by
  cases n; rfl

theorem setIndex_index (n : YamNode) (i : Nat) :
    (n.setIndex i).index = i := by
  cases n; rfl

theorem childRel_setKey_setIndex (n : YamNode) (k : String) (i : Nat) :
    childRel ((n.setKey k).setIndex i) ↔ childRel n := by
  cases n; exact Iff.rfl

theorem childRel_setIndex (n : YamNode) (i : Nat) :
    childRel (n.setIndex i) ↔ childRel n := by
  cases n; exact Iff.rfl

theorem Flatten_setKey_setIndex (n : YamNode) (k : String) (i : Nat) :
    Flatten ((n.setKey k).setIndex i) =
      ((n.setKey k).setIndex i) :: FlattenList n.children := by
  cases n; rw [Flatten]; rfl

theorem Flatten_setIndex (n : YamNode) (i : Nat) :
    Flatten (n.setIndex i) = (n.setIndex i) :: FlattenList n.children := by
  cases n; rw [Flatten]; rfl

theorem convertPairs_shape (path : List String) (depth : Nat) :
    ∀ (content : List RawNode) (i : Nat),
      ∀ c ∈ convertPairs content path depth i,
        c.depth = depth + 1 ∧ c.path = path ++ [c.key]
  | [], i => by
    intro c hc
    simp [convertPairs] at hc
  | [k0], i => by
    intro c hc
    simp [convertPairs] at hc
  | keyNode :: valNode :: rest, i => by
    intro c hc
    rw [convertPairs] at hc
    rcases List.mem_cons.mp hc with hc | hc
    · subst hc
      rw [setKey_setIndex_depth, setKey_setIndex_path, setKey_setIndex_key,
        convertNode_depth, convertNode_path]
      exact ⟨rfl, rfl⟩
    · exact convertPairs_shape path depth rest (i + 1) c hc
termination_by content => content.length

theorem convertItems_shape (path : List String) (depth : Nat) :
    ∀ (content : List RawNode) (i : Nat),
      ∀ c ∈ convertItems content path depth i,
        c.depth = depth + 1 ∧ c.path = path ++ [toString c.index] := by
  intro content
  induction content with
  | nil =>
    intro i c hc
    simp [convertItems] at hc
  | cons item rest ih =>
    intro i c hc
    rw [convertItems] at hc
    rcases List.mem_cons.mp hc with hc | hc
    · subst hc
      rw [setIndex_depth, setIndex_path, setIndex_index, convertNode_depth,
        convertNode_path]
      exact ⟨rfl, rfl⟩
    · exact ih (i + 1) c hc

theorem convertPairs_flat (path : List String) (depth : Nat) :
    ∀ (content : List RawNode) (i : Nat),
      (∀ x ∈ content, ∀ (p : List String) (d : Nat),
        ∀ m ∈ Flatten (convertNode x p d), childRel m) →
      ∀ m ∈ FlattenList (convertPairs content path depth i), childRel m
  | [], i => by
    intro _ m hm
    simp [convertPairs, FlattenList] at hm
  | [k0], i => by
    intro _ m hm
    simp [convertPairs, FlattenList] at hm
  | keyNode :: valNode :: rest, i => by
    intro ih m hm
    rw [convertPairs, FlattenList] at hm
    rcases List.mem_append.mp hm with hm | hm
    · rw [Flatten_setKey_setIndex] at hm
      rcases List.mem_cons.mp hm with hm | hm
      · subst hm
        rw [childRel_setKey_setIndex]
        exact ih valNode (by simp) _ _ _
          (by rw [Flatten]; exact List.mem_cons_self _ _)
      · exact ih valNode (by simp) (path ++ [keyNode.value]) (depth + 1) m
          (by rw [Flatten]; exact List.mem_cons_of_mem _ hm)
    · exact convertPairs_flat path depth rest (i + 1)
        (fun x hx => ih x (by simp [hx])) m hm
termination_by content => content.length

theorem convertItems_flat (path : List String) (depth : Nat) :
    ∀ (content : List RawNode) (i : Nat),
      (∀ x ∈ content, ∀ (p : List String) (d : Nat),
        ∀ m ∈ Flatten (convertNode x p d), childRel m) →
      ∀ m ∈ FlattenList (convertItems content path depth i), childRel m := by
  intro content
  induction content with
  | nil =>
    intro i _ m hm
    simp [convertItems, FlattenList] at hm
  | cons item rest ihc =>
    intro i ih m hm
    rw [convertItems, FlattenList] at hm
    rcases List.mem_append.mp hm with hm | hm
    · rw [Flatten_setIndex] at hm
      rcases List.mem_cons.mp hm with hm | hm
      · subst hm
        rw [childRel_setIndex]
        exact ih item (by simp) _ _ _
          (by rw [Flatten]; exact List.mem_cons_self _ _)
      · exact ih item (by simp) (path ++ [toString i]) (depth + 1) m
          (by rw [Flatten]; exact List.mem_cons_of_mem _ hm)
    · exact ihc (i + 1) (fun x hx => ih x (by simp [hx])) m hm

theorem convertNode_childRel :
    ∀ raw : RawNode, ∀ (p : List String) (d : Nat),
      ∀ m ∈ Flatten (convertNode raw p d), childRel m := by
  apply RawNode.rec_mem_raw
  intro k v t content ih p d m hm
  cases k with
  | document =>
    cases content with
    | nil =>
      simp only [convertNode] at hm
      rw [Flatten] at hm
      rcases List.mem_cons.mp hm with hm | hm
      · subst hm
        intro c hc
        simp [YamNode.children] at hc
      · exfalso
        rcases mem_FlattenList.mp hm with ⟨c, hc, _⟩
        simp [YamNode.children] at hc
    | cons c0 rest =>
      simp only [convertNode] at hm
      rw [Flatten] at hm
      rcases List.mem_cons.mp hm with hm | hm
      · subst hm
        intro c hc
        simp only [YamNode.children] at hc
        simp at hc
        subst hc
        refine ⟨?_, ?_, ?_⟩
        · intro he; simp [YamNode.kind] at he
        · intro he; simp [YamNode.kind] at he
        · intro _
          rw [convertNode_depth, convertNode_path]
          simp [YamNode.depth, YamNode.path]
      · simp only [YamNode.children] at hm
        rcases mem_FlattenList.mp hm with ⟨c, hc, hmc⟩
        simp at hc
        subst hc
        exact ih c0 (by simp) p d m hmc
  | mapping =>
    simp only [convertNode] at hm
    rw [Flatten] at hm
    rcases List.mem_cons.mp hm with hm | hm
    · subst hm
      intro c hc
      simp only [YamNode.children] at hc
      have hsh := convertPairs_shape p d content 0 c hc
      refine ⟨?_, ?_, ?_⟩
      · intro _
        simp only [YamNode.depth, YamNode.path]
        exact ⟨hsh.1, hsh.2⟩
      · intro he; simp [YamNode.kind] at he
      · intro he; simp [YamNode.kind] at he
    · simp only [YamNode.children] at hm
      exact convertPairs_flat p d content 0 (fun x hx => ih x hx) m hm
  | sequence =>
    simp only [convertNode] at hm
    rw [Flatten] at hm
    rcases List.mem_cons.mp hm with hm | hm
    · subst hm
      intro c hc
      simp only [YamNode.children] at hc
      have hsh := convertItems_shape p d content 0 c hc
      refine ⟨?_, ?_, ?_⟩
      · intro he; simp [YamNode.kind] at he
      · intro _
        simp only [YamNode.depth, YamNode.path]
        exact ⟨hsh.1, hsh.2⟩
      · intro he; simp [YamNode.kind] at he
    · simp only [YamNode.children] at hm
      exact convertItems_flat p d content 0 (fun x hx => ih x hx) m hm
  | scalar =>
    simp only [convertNode] at hm
    rw [Flatten] at hm
    rcases List.mem_cons.mp hm with hm | hm
    · subst hm
      intro c hc
      simp [YamNode.children] at hc
    · exfalso
      rcases mem_FlattenList.mp hm with ⟨c, hc, _⟩
      simp [YamNode.children] at hc
  | «alias» =>
    simp only [convertNode] at hm
    rw [Flatten] at hm
    rcases List.mem_cons.mp hm with hm | hm
    · subst hm
      intro c hc
      simp [YamNode.children] at hc
    · exfalso
      rcases mem_FlattenList.mp hm with ⟨c, hc, _⟩
      simp [YamNode.children] at hc

/-- C8 (amended): in a converted tree, children of Mapping nodes sit at
depth parent+1 with the parent path extended by their key; children of
Sequence nodes sit at depth parent+1 with the path extended by their index;
the single child of a Document node inherits its parent's depth and path
unchanged. -/
theorem C8_depth_path (raw : RawNode) (p : List String) (d : Nat) :
    (convertNode raw p d).depth = d ∧ (convertNode raw p d).path = p ∧
    ∀ m ∈ Flatten (convertNode raw p d), ∀ c ∈ m.children,
      (m.kind = .mapping →
        c.depth = m.depth + 1 ∧ c.path = m.path ++ [c.key]) ∧
      (m.kind = .sequence →
        c.depth = m.depth + 1 ∧ c.path = m.path ++ [toString c.index]) ∧
      (m.kind = .document → c.depth = m.depth ∧ c.path = m.path) :=
  ⟨convertNode_depth raw p d, convertNode_path raw p d,
   fun m hm => convertNode_childRel raw p d m hm⟩

/-- A concrete parsed document: a Document root wrapping one scalar. -/
def rawDocSample : RawNode := .mk .document "" "" [.mk .scalar "x" "" []]

/-- The converted child of `rawDocSample`. -/
def docChild : YamNode := .node .scalar "x" "" "" 0 0 [] false []

/-- C8 counterexample: the parser enters the Document's child with the same
path and depth as the Document root itself, so the child (a non-root node)
has depth 0 = its parent's depth, not parent depth + 1, and its path is not
extended. -/
theorem C8_counterexample :
    (convertNode rawDocSample [] 0).depth = 0 ∧
    (convertNode rawDocSample [] 0).children.map YamNode.depth = [0] ∧
    (convertNode rawDocSample [] 0).children.map YamNode.path
      = [([] : List String)] ∧
    (0 : Nat) ≠ 0 + 1 := by
  refine ⟨?_, ?_, ?_, by decide⟩ <;>
    simp [convertNode, rawDocSample, YamNode.depth, YamNode.children,
      YamNode.path]

theorem C8_depth_path_witness :
    docChild.depth = (convertNode rawDocSample [] 0).depth ∧
    docChild.path = (convertNode rawDocSample [] 0).path :=
  ((C8_depth_path rawDocSample [] 0).2.2 (convertNode rawDocSample [] 0)
    (by rw [Flatten]; exact List.mem_cons_self _ _)
    docChild
    (by simp [convertNode, rawDocSample, docChild, YamNode.children])).2.2
    (by simp [convertNode, rawDocSample, YamNode.kind])

/-- ScalarType from internal/parser/types.go. -/
inductive ScalarType where
  | string
  | number
  | boolean
  | null
  | timestamp
deriving DecidableEq, Repr

/-- The digit test of isNumber (Go: `c >= '0' && c <= '9'`). -/
def isDigitByte (c : Char) : Bool := '0' ≤ c ∧ c ≤ '9'

/-- The scanning loop of isNumber (parser/types.go): walks the characters
carrying the previous character (Go reads `s[i-1]`; at the first scanned
position `prev` is the leading sign if one was consumed, else none, which
models Go's `i == 0` rejection of a sign) and the `hasDigit`/`hasDot`/`hasE`
flags. -/
def isNumberLoop (chars : List Char) (prev : Option Char)
    (hasDigit hasDot hasE : Bool) : Bool :=
  match chars with
  | [] => hasDigit
  | c :: rest =>
    if isDigitByte c then isNumberLoop rest (some c) true hasDot hasE
    else if c = '.' then
      if hasDot || hasE then false
      else isNumberLoop rest (some c) hasDigit true hasE
    else if c = 'e' ∨ c = 'E' then
      if hasE || !hasDigit then false
      else isNumberLoop rest (some c) false hasDot true
    else if c = '+' ∨ c = '-' then
      if prev = some 'e' ∨ prev = some 'E' then
        isNumberLoop rest (some c) hasDigit hasDot hasE
      else false
    else if c = '_' then isNumberLoop rest (some c) hasDigit hasDot hasE
    else false

/-- isNumber from internal/parser/types.go: empty string is not a number; a
single leading sign is consumed (a lone sign is rejected); then the loop
scans the rest and the result is `hasDigit` at the end. -/
def isNumber (s : String) : Bool :=
  match s.data with
  | [] => false
  | c :: rest =>
    if c = '-' ∨ c = '+' then
      if rest = [] then false
      else isNumberLoop rest (some c) false false false
    else isNumberLoop (c :: rest) none false false false

/-- Stated from the spec grammar: drop one optional leading sign. -/
def stripSign : List Char → List Char
  | c :: rest => if c = '+' ∨ c = '-' then rest else c :: rest
  | [] => []

/-- Stated from the spec grammar: split at the first exponent marker. -/
def splitAtExp : List Char → List Char × Option (List Char)
  | [] => ([], none)
  | c :: rest =>
    if c = 'e' ∨ c = 'E' then ([], some rest)
    else
      let pr := splitAtExp rest
      (c :: pr.1, pr.2)

/-- Stated from the spec grammar: the digit part before the exponent marker:
digits with underscores permitted anywhere and at most one decimal point,
containing at least one digit. -/
def isMantissa (cs : List Char) : Bool :=
  cs.all (fun c => isDigitByte c || c = '_' || c = '.') &&
  decide (cs.count '.' ≤ 1) &&
  cs.any isDigitByte

/-- Stated from the spec grammar: the digit part after the exponent marker
and its optional sign: digits with underscores permitted anywhere,
containing at least one digit (no decimal point). -/
def isExponentDigits (cs : List Char) : Bool :=
  cs.all (fun c => isDigitByte c || c = '_') && cs.any isDigitByte

/-- The number grammar stated by the spec, following its words: optional
sign, digits with at most one decimal point, then optionally a single
exponent marker e/E followed by an optional sign and digits; underscores
are permitted anywhere within the digit parts. -/
def specNumberGrammar (s : String) : Bool :=
  match splitAtExp (stripSign s.data) with
  | (pre, none) => isMantissa pre
  | (pre, some post) => isMantissa pre && isExponentDigits (stripSign post)

/-- Character-wise lowercasing, modeling strings.ToLower (identical to
String.toLower but structural on the character list so that concrete values
reduce). -/
def toLowerStr (s : String) : String := ⟨s.data.map Char.toLower⟩

/-- InferType from internal/parser/types.go (the Go switches over the tag
and the lowercased value rendered as equality chains). -/
def InferType (n : YamNode) : ScalarType :=
  if n.kind ≠ .scalar then .string
  else if n.tag = "!!null" then .null
  else if n.tag = "!!bool" then .boolean
  else if n.tag = "!!int" ∨ n.tag = "!!float" then .number
  else if n.tag = "!!timestamp" then .timestamp
  else if n.tag = "!!str" then .string
  else if n.tag = "" ∨ n.tag = "!" then
    if toLowerStr n.value = "null" ∨ toLowerStr n.value = "~" ∨
        toLowerStr n.value = "" then .null
    else if toLowerStr n.value = "true" ∨ toLowerStr n.value = "false" ∨
        toLowerStr n.value = "yes" ∨ toLowerStr n.value = "no" ∨
        toLowerStr n.value = "on" ∨ toLowerStr n.value = "off" then .boolean
    else if isNumber n.value then .number
    else .string
  else .string

theorem not_e_of_digit {c : Char} (h1 : isDigitByte c = true) :
    ¬(c = 'e' ∨ c = 'E') := by
  rintro (rfl | rfl) <;> exact absurd h1 (by decide)

theorem isNumberLoop_post :
    ∀ (cs : List Char) (prev : Option Char) (hd hdot : Bool),
      ¬(prev = some 'e' ∨ prev = some 'E') →
      isNumberLoop cs prev hd hdot true =
        (cs.all (fun c => isDigitByte c || c = '_') &&
          (hd || cs.any isDigitByte)) := by
  intro cs
  induction cs with
  | nil => intro prev hd hdot _; simp [isNumberLoop]
  | cons c rest ih =>
    intro prev hd hdot hprev
    simp only [isNumberLoop]
    by_cases h1 : isDigitByte c = true
    · rw [if_pos h1]
      rw [ih (some c) true hdot
        (by rintro (he | he) <;> (injection he with he; subst he) <;>
          exact absurd h1 (by decide))]
      simp [h1]
    · rw [if_neg h1]
      by_cases h2 : c = '.'
      · subst h2
        rw [if_pos rfl]
        simp [isDigitByte]
      · rw [if_neg h2]
        by_cases h3 : c = 'e' ∨ c = 'E'
        · rw [if_pos h3]
          have hnd : isDigitByte c = false := by
            rcases h3 with rfl | rfl <;> decide
          simp [hnd, h3]
          rcases h3 with rfl | rfl <;> simp
        · rw [if_neg h3]
          by_cases h4 : c = '+' ∨ c = '-'
          · rw [if_pos h4]
            rw [if_neg hprev]
            have hnd : isDigitByte c = false := by
              rcases h4 with rfl | rfl <;> decide
            simp [hnd]
            rcases h4 with rfl | rfl <;> simp
          · rw [if_neg h4]
            by_cases h5 : c = '_'
            · subst h5
              rw [if_pos rfl]
              rw [ih (some '_') hd hdot (by rintro (he | he) <;> cases he)]
              simp [isDigitByte]
            · rw [if_neg h5]
              simp [h1, h5]

theorem isNumberLoop_exp_entry :
    ∀ (cs : List Char) (hdot : Bool) (ec : Char), (ec = 'e' ∨ ec = 'E') →
      isNumberLoop cs (some ec) false hdot true =
        isExponentDigits (stripSign cs) := by
  intro cs hdot ec hec
  cases cs with
  | nil =>
    simp [isNumberLoop, stripSign, isExponentDigits]
  | cons c rest =>
    simp only [isNumberLoop, stripSign]
    by_cases h1 : isDigitByte c = true
    · rw [if_pos h1]
      rw [isNumberLoop_post rest (some c) true hdot
        (by rintro (he | he) <;> (injection he with he; subst he) <;>
          exact absurd h1 (by decide))]
      have hns : ¬(c = '+' ∨ c = '-') := by
        rintro (rfl | rfl) <;> exact absurd h1 (by decide)
      rw [if_neg hns]
      simp [isExponentDigits, h1]
    · rw [if_neg h1]
      by_cases h2 : c = '.'
      · subst h2
        rw [if_pos rfl]
        simp
        simp [isExponentDigits, isDigitByte]
      · rw [if_neg h2]
        by_cases h3 : c = 'e' ∨ c = 'E'
        · rw [if_pos h3]
          have hns : ¬(c = '+' ∨ c = '-') := by
            rcases h3 with rfl | rfl <;> rintro (he | he) <;> cases he
          rw [if_neg hns]
          simp [isExponentDigits]
          rcases h3 with rfl | rfl <;> simp [isDigitByte]
        · rw [if_neg h3]
          by_cases h4 : c = '+' ∨ c = '-'
          · rw [if_pos h4]
            rw [if_pos (by rcases hec with rfl | rfl <;> simp)]
            rw [if_pos h4]
            rw [isNumberLoop_post rest (some c) false hdot
              (by rintro (he | he) <;> (injection he with he; subst he) <;>
                rcases h4 with h | h <;> cases h)]
            simp [isExponentDigits]
          · rw [if_neg h4]
            rw [if_neg h4]
            by_cases h5 : c = '_'
            · subst h5
              rw [if_pos rfl]
              rw [isNumberLoop_post rest (some '_') false hdot
                (by rintro (he | he) <;> cases he)]
              simp [isExponentDigits, isDigitByte]
            · rw [if_neg h5]
              simp [isExponentDigits, h1, h5]

/-- The spec grammar acceptance from mid-scan state: what remains of the
grammar when `hd` digits and `hdot` dots have already been consumed. -/
def specFromPre (cs : List Char) (hd hdot : Bool) : Bool :=
  match splitAtExp cs with
  | (pre, none) =>
      pre.all (fun c => isDigitByte c || c = '_' || c = '.') &&
      decide (pre.count '.' + (if hdot then 1 else 0) ≤ 1) &&
      (hd || pre.any isDigitByte)
  | (pre, some post) =>
      (pre.all (fun c => isDigitByte c || c = '_' || c = '.') &&
       decide (pre.count '.' + (if hdot then 1 else 0) ≤ 1) &&
       (hd || pre.any isDigitByte)) &&
      isExponentDigits (stripSign post)

theorem isNumberLoop_pre :
    ∀ (cs : List Char) (prev : Option Char) (hd hdot : Bool),
      ¬(prev = some 'e' ∨ prev = some 'E') →
      isNumberLoop cs prev hd hdot false = specFromPre cs hd hdot := by
  intro cs
  induction cs with
  | nil =>
    intro prev hd hdot _
    simp only [isNumberLoop, specFromPre, splitAtExp]
    cases hdot <;> simp
  | cons c rest ih =>
    intro prev hd hdot hprev
    simp only [isNumberLoop]
    by_cases h1 : isDigitByte c = true
    · rw [if_pos h1]
      rw [ih (some c) true hdot
        (by rintro (he | he) <;> (injection he with he; subst he) <;>
          exact absurd h1 (by decide))]
      have hne : ¬(c = 'e' ∨ c = 'E') := not_e_of_digit h1
      have hnd : c ≠ '.' := by
        intro he; subst he; exact absurd h1 (by decide)
      simp only [specFromPre, splitAtExp, if_neg hne]
      rcases hsp : splitAtExp rest with ⟨pre, post⟩
      cases post <;> simp [hsp, h1, List.count_cons, hnd]
    · rw [if_neg h1]
      by_cases h2 : c = '.'
      · subst h2
        rw [if_pos rfl]
        simp only [Bool.or_false]
        cases hdot with
        | true =>
          rw [if_pos rfl]
          simp only [specFromPre, splitAtExp]
          rcases hsp : splitAtExp rest with ⟨pre, post⟩
          cases post <;> simp [hsp, List.count_cons]
        | false =>
          rw [if_neg (by simp)]
          rw [ih (some '.') hd true (by rintro (he | he) <;> cases he)]
          simp only [specFromPre, splitAtExp]
          rcases hsp : splitAtExp rest with ⟨pre, post⟩
          cases post <;> simp [hsp, List.count_cons, isDigitByte]
      · rw [if_neg h2]
        by_cases h3 : c = 'e' ∨ c = 'E'
        · rw [if_pos h3]
          simp only [specFromPre, splitAtExp, if_pos h3]
          cases hd with
          | false => simp
          | true =>
            rw [if_neg (by simp)]
            rw [isNumberLoop_exp_entry rest hdot c h3]
            cases hdot <;> simp
        · rw [if_neg h3]
          by_cases h4 : c = '+' ∨ c = '-'
          · rw [if_pos h4]
            rw [if_neg hprev]
            have hp : ¬(isDigitByte c || c = '_' || c = '.') = true := by
              rcases h4 with rfl | rfl <;> decide
            simp only [specFromPre, splitAtExp, if_neg h3]
            rcases hsp : splitAtExp rest with ⟨pre, post⟩
            cases post <;> simp [hsp, hp]
          · rw [if_neg h4]
            by_cases h5 : c = '_'
            · subst h5
              rw [if_pos rfl]
              rw [ih (some '_') hd hdot (by rintro (he | he) <;> cases he)]
              simp only [specFromPre, splitAtExp]
              rcases hsp : splitAtExp rest with ⟨pre, post⟩
              cases post <;> simp [hsp, List.count_cons, isDigitByte]
            · rw [if_neg h5]
              have hp : ¬(isDigitByte c || c = '_' || c = '.') = true := by
                simp [h1, h5, h2]
              simp only [specFromPre, splitAtExp, if_neg h3]
              rcases hsp : splitAtExp rest with ⟨pre, post⟩
              cases post <;> simp [hsp, hp]

theorem isNumber_eq_specNumberGrammar (s : String) :
    isNumber s = specNumberGrammar s := by
  rw [isNumber.eq_def]
  simp only [specNumberGrammar]
  cases hdata : s.data with
  | nil => simp [stripSign, splitAtExp, isMantissa]
  | cons c rest =>
    show (if c = '-' ∨ c = '+' then
        if rest = [] then false else isNumberLoop rest (some c) false false false
      else isNumberLoop (c :: rest) none false false false) = _
    by_cases h0 : c = '-' ∨ c = '+'
    · rw [if_pos h0]
      have hss : stripSign (c :: rest) = rest := by
        rw [stripSign, if_pos (by tauto)]
      rw [hss]
      cases rest with
      | nil =>
        rw [if_pos rfl]
        simp [splitAtExp, isMantissa]
      | cons c1 r1 =>
        rw [if_neg (by simp)]
        rw [isNumberLoop_pre (c1 :: r1) (some c) false false
          (by rcases h0 with rfl | rfl <;> rintro (he | he) <;> cases he)]
        simp only [specFromPre]
        rcases hsp : splitAtExp (c1 :: r1) with ⟨pre, post⟩
        cases post <;> simp [isMantissa, hsp]
    · rw [if_neg h0]
      rw [isNumberLoop_pre (c :: rest) none false false
        (by rintro (he | he) <;> cases he)]
      have hss : stripSign (c :: rest) = c :: rest := by
        rw [stripSign, if_neg (by tauto)]
      rw [hss]
      simp only [specFromPre]
      rcases hsp : splitAtExp (c :: rest) with ⟨pre, post⟩
      cases post <;> simp [isMantissa, hsp]

/-- C9: InferType on a scalar: an explicit recognized tag decides the type;
otherwise the lowercased value decides Null and Boolean by the fixed word
sets, and the value is classified Number exactly when it matches the spec's
number grammar (optional sign, digits with at most one decimal point,
optional single e/E exponent with optional sign and digits, underscores
permitted anywhere in the digit parts), else String. -/
theorem C9_infer_type (n : YamNode) (hk : n.kind = .scalar) :
    (n.tag = "!!null" → InferType n = .null) ∧
    (n.tag = "!!bool" → InferType n = .boolean) ∧
    (n.tag = "!!int" → InferType n = .number) ∧
    (n.tag = "!!float" → InferType n = .number) ∧
    (n.tag = "!!timestamp" → InferType n = .timestamp) ∧
    (n.tag = "!!str" → InferType n = .string) ∧
    ((n.tag = "" ∨ n.tag = "!") →
      ((toLowerStr n.value = "null" ∨ toLowerStr n.value = "~" ∨
          toLowerStr n.value = "" → InferType n = .null) ∧
       (¬(toLowerStr n.value = "null" ∨ toLowerStr n.value = "~" ∨
          toLowerStr n.value = "") →
        toLowerStr n.value = "true" ∨ toLowerStr n.value = "false" ∨
          toLowerStr n.value = "yes" ∨ toLowerStr n.value = "no" ∨
          toLowerStr n.value = "on" ∨ toLowerStr n.value = "off" →
          InferType n = .boolean) ∧
       (¬(toLowerStr n.value = "null" ∨ toLowerStr n.value = "~" ∨
          toLowerStr n.value = "") →
        ¬(toLowerStr n.value = "true" ∨ toLowerStr n.value = "false" ∨
          toLowerStr n.value = "yes" ∨ toLowerStr n.value = "no" ∨
          toLowerStr n.value = "on" ∨ toLowerStr n.value = "off") →
          (InferType n = .number ↔ specNumberGrammar n.value = true) ∧
          (InferType n = .string ↔ specNumberGrammar n.value = false)))) := by
  refine ⟨?_, ?_, ?_, ?_, ?_, ?_, ?_⟩
  · intro ht; simp [InferType, hk, ht]
  · intro ht; simp [InferType, hk, ht]
  · intro ht; simp [InferType, hk, ht]
  · intro ht; simp [InferType, hk, ht]
  · intro ht; simp [InferType, hk, ht]
  · intro ht; simp [InferType, hk, ht]
  · intro ht
    refine ⟨?_, ?_, ?_⟩
    · intro hv
      rcases ht with ht | ht <;> simp [InferType, hk, ht, hv]
    · intro hv1 hv2
      rcases ht with ht | ht <;> simp [InferType, hk, ht, hv1, hv2]
    · intro hv1 hv2
      by_cases hn : specNumberGrammar n.value = true
      · rcases ht with ht | ht <;>
          simp [InferType, hk, ht, hv1, hv2,
            isNumber_eq_specNumberGrammar, hn]
      · have hn2 : specNumberGrammar n.value = false := by
          cases h : specNumberGrammar n.value
          · rfl
          · exact absurd h hn
        rcases ht with ht | ht <;>
          simp [InferType, hk, ht, hv1, hv2,
            isNumber_eq_specNumberGrammar, hn2]

/-- A sample untagged numeric-looking scalar node. -/
def sampleNumScalar : YamNode :=
  .node .scalar "1_000.5e+3" "" "" 0 0 [] false []

theorem C9_infer_type_witness :
    (sampleNumScalar.tag = "!!bool" → InferType sampleNumScalar = .boolean) ∧
    (InferType sampleNumScalar = .number ↔
      specNumberGrammar sampleNumScalar.value = true) ∧
    specNumberGrammar sampleNumScalar.value = true := by
  obtain ⟨h1, h2, h3, h4, h5, h6, h7⟩ := C9_infer_type sampleNumScalar rfl
  obtain ⟨g1, g2, g3⟩ := h7 (.inl rfl)
  refine ⟨h2, (g3 (by decide) (by decide)).1, by decide⟩

/-- maxUndoStackSize from the ui model. -/
def maxUndoStackSize : Nat := 10

/-- UndoEntry from the ui model: the edited node (identified by a numeric id
standing for the Go node pointer) and the old and new scalar values. -/
structure UndoEntry where
  node : Nat
  oldValue : String
  newValue : String
deriving DecidableEq, Repr

/-- The edit/undo-relevant state of the ui Model: the scalar value store
(`values nid` models `node.Raw.Value`), the two stacks (head = most recent;
Go appends at the slice end and pops there, and evicts the slice front,
which here is the list tail), the dirty map and flag, and the transient edit
session.  `readOnly` models `filename == "stdin" || filename == "-"`. -/
structure Model where
  values : Nat → String
  undoStack : List UndoEntry
  redoStack : List UndoEntry
  modified : Bool
  modifiedNodes : Nat → Bool
  statusMessage : String
  editMode : Bool
  editNode : Option Nat
  originalValue : String
  editInput : String
  readOnly : Bool

/-- Pointwise store update, modeling the in-place `node.Raw.Value = v`. -/
def upd (v : Nat → String) (nid : Nat) (s : String) : Nat → String :=
  fun x => if x = nid then s else v x

/-- startEdit from the ui model, for an editable (scalar) node: captures the
original value and fills the edit input; rejected when read-only. -/
def startEdit (nid : Nat) (m : Model) : Model :=
  if m.readOnly then
    { m with statusMessage := "Cannot edit: read-only (stdin)" }
  else
    { m with editMode := true, editNode := some nid,
             originalValue := m.values nid, editInput := m.values nid }

/-- pushUndo from the ui model: push the entry, evict the oldest entry when
the stack exceeds maxUndoStackSize, and clear the redo stack. -/
def pushUndo (entry : UndoEntry) (m : Model) : Model :=
  let stack := entry :: m.undoStack
  let stack := if maxUndoStackSize < stack.length then stack.dropLast else stack
  { m with undoStack := stack, redoStack := [] }

/-- confirmEdit from the ui model: when the new value differs from the
captured original, push an undo entry, write the value in place and mark the
node dirty; in both cases exit edit mode. -/
def confirmEdit (m : Model) : Model :=
  match m.editNode with
  | none => m
  | some nid =>
    let newValue := m.editInput
    let m1 :=
      if newValue ≠ m.originalValue then
        let m2 := pushUndo ⟨nid, m.originalValue, newValue⟩ m
        { m2 with values := upd m2.values nid newValue,
                  modified := true,
                  modifiedNodes :=
                    fun x => if x = nid then true else m2.modifiedNodes x }
      else m
    { m1 with editMode := false, editNode := none, originalValue := "" }

/-- updateModifiedState from the ui model: a node is dirty iff some
remaining undo entry for it has an old value differing from the node's
current value; the modified flag is set iff some node is dirty. -/
def updateModifiedState (m : Model) : Model :=
  { m with
    modifiedNodes := fun nid =>
      m.undoStack.any fun e => e.node == nid && !(m.values e.node == e.oldValue),
    modified := m.undoStack.any fun e => !(m.values e.node == e.oldValue) }

/-- undo from the ui model: pop the most recent entry, restore the old
value, move the entry to the redo stack, recompute the dirty state. -/
def undo (m : Model) : Model :=
  match m.undoStack with
  | [] => { m with statusMessage := "Nothing to undo" }
  | entry :: rest =>
    let m1 := { m with undoStack := rest,
                       values := upd m.values entry.node entry.oldValue,
                       redoStack := entry :: m.redoStack }
    let m2 := updateModifiedState m1
    { m2 with statusMessage := "Undo: restored value" }

/-- redo from the ui model: pop the most recent redo entry, re-apply the new
value, push the entry back onto the undo stack, mark the node dirty. -/
def redo (m : Model) : Model :=
  match m.redoStack with
  | [] => { m with statusMessage := "Nothing to redo" }
  | entry :: rest =>
    { m with redoStack := rest,
             values := upd m.values entry.node entry.newValue,
             undoStack := entry :: m.undoStack,
             modified := true,
             modifiedNodes :=
               fun x => if x = entry.node then true else m.modifiedNodes x,
             statusMessage := "Redo: re-applied value" }

/-- One complete interactive edit: startEdit, type a new value into the
input, confirmEdit. -/
def editScalar (nid : Nat) (v : String) (m : Model) : Model :=
  confirmEdit { startEdit nid m with editInput := v }

/-- A sequence of complete edits. -/
def applyEdits (m : Model) (es : List (Nat × String)) : Model :=
  es.foldl (fun acc e => editScalar e.1 e.2 acc) m

/-- Restoring every old value of the stack, most recent first. -/
def popAll : List UndoEntry → (Nat → String) → Nat → String
  | [], v => v
  | e :: rest, v => popAll rest (upd v e.node e.oldValue)

/-- Re-applying every new value of a redo list, head first. -/
def pushAllRedo : List UndoEntry → (Nat → String) → Nat → String
  | [], v => v
  | e :: rest, v => pushAllRedo rest (upd v e.node e.newValue)

/-- History consistency: each entry's new value is the store's value at the
moment the entries above it have been popped. -/
def consistent : (Nat → String) → List UndoEntry → Prop
  | _, [] => True
  | v, e :: rest =>
    v e.node = e.newValue ∧ consistent (upd v e.node e.oldValue) rest

theorem upd_same (v : Nat → String) (n : Nat) (s : String) : upd v n s n = s := by
  simp [upd]

theorem upd_upd_cancel (v : Nat → String) (n : Nat) (a b : String) :
    upd (upd v n a) n b = upd v n b := by
  funext x; by_cases h : x = n <;> simp [upd, h]

theorem upd_self (v : Nat → String) (n : Nat) (s : String) (h : v n = s) :
    upd v n s = v := by
  funext x; by_cases hx : x = n <;> simp [upd, hx, h]

theorem editScalar_eq_noop (m : Model) (nid : Nat) (v : String)
    (hro : m.readOnly = false) (hv : v = m.values nid) :
    editScalar nid v m =
      { m with editMode := false, editNode := none, originalValue := "",
               editInput := v } := by
  cases m with
  | mk values us rs md mn sm em en ov ei ro =>
    simp only [Model.readOnly] at hro
    simp only [Model.values] at hv
    subst hro
    simp [editScalar, startEdit, confirmEdit, hv]

theorem editScalar_eq_changed (m : Model) (nid : Nat) (v : String)
    (hro : m.readOnly = false) (hv : ¬ v = m.values nid)
    (hlen : ¬ maxUndoStackSize < m.undoStack.length + 1) :
    editScalar nid v m =
      { m with values := upd m.values nid v,
               undoStack := ⟨nid, m.values nid, v⟩ :: m.undoStack,
               redoStack := [],
               modified := true,
               modifiedNodes := fun x => if x = nid then true else m.modifiedNodes x,
               editMode := false,
               editNode := none,
               originalValue := "",
               editInput := v } := by
  cases m with
  | mk values us rs md mn sm em en ov ei ro =>
    simp only [Model.readOnly] at hro
    simp only [Model.values] at hv
    simp only [Model.undoStack] at hlen
    subst hro
    simp [editScalar, startEdit, confirmEdit, pushUndo, hv, hlen]

/-- The invariant carried through a sequence of complete edits starting from
pristine stacks with original values `v0`: popping the whole undo stack
restores `v0`, the stack is consistent with the store, the model stays
writable and the redo stack stays empty. -/
def EditInv (v0 : Nat → String) (m : Model) : Prop :=
  (∀ x, popAll m.undoStack m.values x = v0 x) ∧
  consistent m.values m.undoStack ∧
  m.readOnly = false ∧
  m.redoStack = []

theorem editScalar_inv (v0 : Nat → String) (m : Model) (nid : Nat) (v : String)
    (hlen : m.undoStack.length < maxUndoStackSize) (hinv : EditInv v0 m) :
    EditInv v0 (editScalar nid v m) ∧
    (editScalar nid v m).undoStack.length ≤ m.undoStack.length + 1 := by
  obtain ⟨hpop, hcons, hro, hredo⟩ := hinv
  by_cases hv : v = m.values nid
  · rw [editScalar_eq_noop m nid v hro hv]
    refine ⟨⟨hpop, hcons, hro, hredo⟩, ?_⟩
    show m.undoStack.length ≤ m.undoStack.length + 1
    omega
  · rw [editScalar_eq_changed m nid v hro hv (by omega)]
    refine ⟨⟨?_, ?_, hro, rfl⟩, ?_⟩
    · intro x
      show popAll m.undoStack (upd (upd m.values nid v) nid (m.values nid)) x = v0 x
      rw [upd_upd_cancel, upd_self _ _ _ rfl]
      exact hpop x
    · show upd m.values nid v nid = v ∧
        consistent (upd (upd m.values nid v) nid (m.values nid)) m.undoStack
      rw [upd_upd_cancel, upd_self _ _ _ rfl]
      exact ⟨upd_same _ _ _, hcons⟩
    · show (⟨nid, m.values nid, v⟩ :: m.undoStack).length ≤ m.undoStack.length + 1
      simp

theorem applyEdits_inv (v0 : Nat → String) (es : List (Nat × String)) :
    ∀ m : Model, m.undoStack.length + es.length ≤ maxUndoStackSize →
      EditInv v0 m →
      EditInv v0 (applyEdits m es) ∧
      (applyEdits m es).undoStack.length ≤ m.undoStack.length + es.length := by
  induction es with
  | nil =>
    intro m _ hinv
    exact ⟨hinv, by simp [applyEdits]⟩
  | cons e rest ih =>
    intro m hlen hinv
    have hstep := editScalar_inv v0 m e.1 e.2 (by simp at hlen; omega) hinv
    have hfold : applyEdits m (e :: rest) = applyEdits (editScalar e.1 e.2 m) rest := by
      simp [applyEdits]
    rw [hfold]
    have hrec := ih (editScalar e.1 e.2 m)
      (by simp at hlen ⊢; omega) hstep.1
    refine ⟨hrec.1, ?_⟩
    have h1 := hstep.2
    have h2 := hrec.2
    simp only [List.length_cons]
    omega

theorem undo_cons (m : Model) (e : UndoEntry) (rest : List UndoEntry)
    (h : m.undoStack = e :: rest) :
    (undo m).values = upd m.values e.node e.oldValue ∧
    (undo m).undoStack = rest ∧
    (undo m).redoStack = e :: m.redoStack := by
  cases m with
  | mk values us rs md mn sm em en ov ei ro =>
    simp only [Model.undoStack] at h
    subst h
    simp [undo, updateModifiedState]

theorem undo_nil (m : Model) (h : m.undoStack = []) :
    (undo m).values = m.values ∧ (undo m).undoStack = [] ∧
    (undo m).redoStack = m.redoStack := by
  cases m with
  | mk values us rs md mn sm em en ov ei ro =>
    simp only [Model.undoStack] at h
    subst h
    simp [undo]

theorem undo_iter_full : ∀ (k : Nat) (m : Model), m.undoStack.length = k →
    (undo^[k] m).values = popAll m.undoStack m.values ∧
    (undo^[k] m).undoStack = [] ∧
    (undo^[k] m).redoStack = m.undoStack.reverse ++ m.redoStack := by
  intro k
  induction k with
  | zero =>
    intro m h
    cases hs : m.undoStack with
    | nil => simp [hs, popAll]
    | cons e rest => rw [hs] at h; simp at h
  | succ n ih =>
    intro m h
    cases hs : m.undoStack with
    | nil => rw [hs] at h; simp at h
    | cons e rest =>
      rw [Function.iterate_succ_apply]
      obtain ⟨hv, hu, hr⟩ := undo_cons m e rest hs
      have hlen : (undo m).undoStack.length = n := by
        rw [hu]; rw [hs] at h; simpa using h
      obtain ⟨ihv, ihu, ihr⟩ := ih (undo m) hlen
      refine ⟨?_, ihu, ?_⟩
      · rw [ihv, hu, hv]
        rfl
      · rw [ihr, hu, hr]
        simp

theorem undo_iter_nil : ∀ (k : Nat) (m : Model), m.undoStack = [] →
    (undo^[k] m).values = m.values ∧ (undo^[k] m).undoStack = [] ∧
    (undo^[k] m).redoStack = m.redoStack := by
  intro k
  induction k with
  | zero =>
    intro m h
    rw [Function.iterate_zero_apply]
    exact ⟨rfl, h, rfl⟩
  | succ n ih =>
    intro m h
    rw [Function.iterate_succ_apply]
    obtain ⟨hv, hu, hr⟩ := undo_nil m h
    obtain ⟨ihv, ihu, ihr⟩ := ih (undo m) hu
    exact ⟨by rw [ihv, hv], ihu, by rw [ihr, hr]⟩

theorem redo_cons (m : Model) (e : UndoEntry) (rest : List UndoEntry)
    (h : m.redoStack = e :: rest) :
    (redo m).values = upd m.values e.node e.newValue ∧
    (redo m).redoStack = rest := by
  cases m with
  | mk values us rs md mn sm em en ov ei ro =>
    simp only [Model.redoStack] at h
    subst h
    simp [redo]

theorem redo_nil (m : Model) (h : m.redoStack = []) :
    (redo m).values = m.values ∧ (redo m).redoStack = [] := by
  cases m with
  | mk values us rs md mn sm em en ov ei ro =>
    simp only [Model.redoStack] at h
    subst h
    simp [redo]

theorem redo_iter_full : ∀ (k : Nat) (m : Model), m.redoStack.length = k →
    (redo^[k] m).values = pushAllRedo m.redoStack m.values ∧
    (redo^[k] m).redoStack = [] := by
  intro k
  induction k with
  | zero =>
    intro m h
    cases hs : m.redoStack with
    | nil => simp [hs, pushAllRedo]
    | cons e rest => rw [hs] at h; simp at h
  | succ n ih =>
    intro m h
    cases hs : m.redoStack with
    | nil => rw [hs] at h; simp at h
    | cons e rest =>
      rw [Function.iterate_succ_apply]
      obtain ⟨hv, hr⟩ := redo_cons m e rest hs
      have hlen : (redo m).redoStack.length = n := by
        rw [hr]; rw [hs] at h; simpa using h
      obtain ⟨ihv, ihr⟩ := ih (redo m) hlen
      refine ⟨?_, ihr⟩
      rw [ihv, hr, hv]
      rfl

theorem redo_iter_nil : ∀ (k : Nat) (m : Model), m.redoStack = [] →
    (redo^[k] m).values = m.values ∧ (redo^[k] m).redoStack = [] := by
  intro k
  induction k with
  | zero =>
    intro m h
    rw [Function.iterate_zero_apply]
    exact ⟨rfl, h⟩
  | succ n ih =>
    intro m h
    rw [Function.iterate_succ_apply]
    obtain ⟨hv, hr⟩ := redo_nil m h
    obtain ⟨ihv, ihr⟩ := ih (redo m) hr
    exact ⟨by rw [ihv, hv], ihr⟩

theorem pushAllRedo_append : ∀ (a b : List UndoEntry) (v : Nat → String),
    pushAllRedo (a ++ b) v = pushAllRedo b (pushAllRedo a v) := by
  intro a
  induction a with
  | nil => intro b v; rfl
  | cons e rest ih =>
    intro b v
    simp only [List.cons_append, pushAllRedo]
    exact ih b (upd v e.node e.newValue)

theorem pushAll_popAll : ∀ (S : List UndoEntry) (v : Nat → String),
    consistent v S → pushAllRedo S.reverse (popAll S v) = v := by
  intro S
  induction S with
  | nil => intro v _; rfl
  | cons e rest ih =>
    intro v hc
    obtain ⟨h1, h2⟩ := hc
    simp only [popAll, List.reverse_cons]
    rw [pushAllRedo_append, ih _ h2]
    simp only [pushAllRedo]
    rw [upd_upd_cancel]
    exact upd_self _ _ _ h1

/-- C6 (amended): for a writable model with pristine stacks and a sequence
of at most maxUndoStackSize (= 10) complete confirmed edits, performing one
undo per edit restores every scalar value to its pre-edit original, and one
redo per edit then restores every post-edit value exactly (value equality).
The bound is necessary: beyond 10 edits the oldest undo entries are evicted,
so the original claim fails for n = 11 (see the counterexample). -/
theorem C6_undo_redo (m0 : Model) (es : List (Nat × String))
    (h0 : m0.undoStack = []) (h1 : m0.redoStack = [])
    (h2 : m0.readOnly = false) (hn : es.length ≤ maxUndoStackSize) :
    (∀ nid, (undo^[es.length] (applyEdits m0 es)).values nid = m0.values nid) ∧
    (∀ nid, (redo^[es.length] (undo^[es.length] (applyEdits m0 es))).values nid
        = (applyEdits m0 es).values nid) := by
  have hinv0 : EditInv m0.values m0 := by
    refine ⟨?_, ?_, h2, h1⟩
    · intro x; rw [h0]; rfl
    · rw [h0]; trivial
  obtain ⟨⟨hpop, hcons, hro, hredo⟩, hlen⟩ :=
    applyEdits_inv m0.values es m0 (by rw [h0]; simpa using hn) hinv0
  rw [h0] at hlen
  simp only [List.length_nil, Nat.zero_add] at hlen
  obtain ⟨huv, huu, hur⟩ :=
    undo_iter_full (applyEdits m0 es).undoStack.length (applyEdits m0 es) rfl
  have hsplit :
      es.length = (es.length - (applyEdits m0 es).undoStack.length) +
        (applyEdits m0 es).undoStack.length := by omega
  have hiter : undo^[es.length] (applyEdits m0 es) =
      undo^[es.length - (applyEdits m0 es).undoStack.length]
        (undo^[(applyEdits m0 es).undoStack.length] (applyEdits m0 es)) := by
    conv_lhs => rw [hsplit]
    exact Function.iterate_add_apply _ _ _ _
  obtain ⟨hnv, hnu, hnr⟩ :=
    undo_iter_nil (es.length - (applyEdits m0 es).undoStack.length)
      (undo^[(applyEdits m0 es).undoStack.length] (applyEdits m0 es)) huu
  have hufv : (undo^[es.length] (applyEdits m0 es)).values =
      popAll (applyEdits m0 es).undoStack (applyEdits m0 es).values := by
    rw [hiter, hnv, huv]
  have hufr : (undo^[es.length] (applyEdits m0 es)).redoStack =
      (applyEdits m0 es).undoStack.reverse := by
    rw [hiter, hnr, hur, hredo, List.append_nil]
  refine ⟨?_, ?_⟩
  · intro nid
    rw [hufv]
    exact hpop nid
  · intro nid
    have hrlen : (undo^[es.length] (applyEdits m0 es)).redoStack.length =
        (applyEdits m0 es).undoStack.length := by
      rw [hufr, List.length_reverse]
    obtain ⟨hrv, hrr⟩ :=
      redo_iter_full (applyEdits m0 es).undoStack.length
        (undo^[es.length] (applyEdits m0 es)) hrlen
    have hiter2 : ∀ u : Model, redo^[es.length] u =
        redo^[es.length - (applyEdits m0 es).undoStack.length]
          (redo^[(applyEdits m0 es).undoStack.length] u) := by
      intro u
      conv_lhs => rw [hsplit]
      exact Function.iterate_add_apply _ _ _ _
    obtain ⟨hnv2, hnr2⟩ :=
      redo_iter_nil (es.length - (applyEdits m0 es).undoStack.length)
        (redo^[(applyEdits m0 es).undoStack.length]
          (undo^[es.length] (applyEdits m0 es))) hrr
    rw [hiter2 _, hnv2, hrv, hufr, hufv,
      pushAll_popAll (applyEdits m0 es).undoStack (applyEdits m0 es).values hcons]

/-- A pristine writable model whose every scalar holds "0". -/
def m0c : Model :=
  ⟨fun _ => "0", [], [], false, fun _ => false, "", false, none, "", "", false⟩

/-- Eleven edits, each setting a distinct scalar node to "1". -/
def es11 : List (Nat × String) := (List.range 11).map fun i => (i, "1")

/-- Eleven edits followed by eleven undos do NOT restore node 0: its undo
entry was evicted when the stack exceeded maxUndoStackSize, so its value
stays "1" while the pre-edit original was "0". This refutes the unbounded
form of the undo/redo law. -/
theorem C6_counterexample :
    ¬ ((undo^[es11.length] (applyEdits m0c es11)).values 0 = m0c.values 0) := by
  decide

/-- Two edits. -/
def es2 : List (Nat × String) := [(5, "one"), (6, "two")]

theorem C6_undo_redo_witness :
    (undo^[es2.length] (applyEdits m0c es2)).values 5 = m0c.values 5 ∧
    (redo^[es2.length] (undo^[es2.length] (applyEdits m0c es2))).values 5
      = (applyEdits m0c es2).values 5 := by
  have h := C6_undo_redo m0c es2 rfl rfl rfl (by decide)
  exact ⟨h.1 5, h.2 5⟩

/-- C10: confirming an edit whose input equals the captured original leaves
the value store, the undo stack, the redo stack, the dirty-node map and the
modified flag unchanged, and only exits edit mode; whereas a value-changing
confirm always clears the redo stack. -/
theorem C10_noop_confirm (m : Model) (nid : Nat)
    (he : m.editNode = some nid) (hv : m.editInput = m.originalValue) :
    (confirmEdit m).values = m.values ∧
    (confirmEdit m).undoStack = m.undoStack ∧
    (confirmEdit m).redoStack = m.redoStack ∧
    (confirmEdit m).modifiedNodes = m.modifiedNodes ∧
    (confirmEdit m).modified = m.modified ∧
    (confirmEdit m).editMode = false ∧
    (confirmEdit m).editNode = none ∧
    (∀ m2 : Model, ∀ nid2 : Nat, m2.editNode = some nid2 →
      m2.editInput ≠ m2.originalValue → (confirmEdit m2).redoStack = []) := by
  refine ⟨?_, ?_, ?_, ?_, ?_, ?_, ?_, ?_⟩
  all_goals try simp [confirmEdit, he, hv]
  intro m2 nid2 he2 hv2
  simp [confirmEdit, pushUndo, he2, hv2]

/-- A model mid-edit whose input equals the captured original. -/
def mNoop : Model :=
  ⟨fun _ => "x", [⟨0, "a", "b"⟩], [⟨1, "c", "d"⟩], true,
    fun _ => false, "", true, some 3, "x", "x", false⟩

/-- A model mid-edit whose input differs from the captured original. -/
def mChanged : Model :=
  ⟨fun _ => "x", [], [⟨1, "c", "d"⟩], false,
    fun _ => false, "", true, some 4, "old", "new", false⟩

theorem C10_noop_confirm_witness :
    (confirmEdit mNoop).values = mNoop.values ∧
    (confirmEdit mNoop).undoStack = mNoop.undoStack ∧
    (confirmEdit mNoop).redoStack = mNoop.redoStack ∧
    (confirmEdit mNoop).modifiedNodes = mNoop.modifiedNodes ∧
    (confirmEdit mNoop).modified = mNoop.modified ∧
    (confirmEdit mNoop).editMode = false ∧
    (confirmEdit mNoop).editNode = none ∧
    (confirmEdit mChanged).redoStack = [] := by
  have h := C10_noop_confirm mNoop 3 rfl rfl
  exact ⟨h.1, h.2.1, h.2.2.1, h.2.2.2.1, h.2.2.2.2.1, h.2.2.2.2.2.1,
    h.2.2.2.2.2.2.1, h.2.2.2.2.2.2.2 mChanged 4 rfl (by decide)⟩

end Yam
